import Mathlib

/-!
Verification of the phiauto planner core against its specification.

The definitions below are shallow embeddings of the functions in
`src/algo/algo_base.py`, `src/bamboo.py` and `src/pec.py`:
pure Python functions become Lean functions, Python `bytes` become
`List ℕ` (entries below 256), Python `float` timestamps and
coordinates in the geometry/track engine become `ℚ` (exact
arithmetic), and the IEEE-754 payloads carried opaquely through the
serializer are modelled by their 64-bit patterns.  Fallible code
(functions that can raise) returns `Option`.
-/

namespace PhiAuto

/-- Touch action codes, from the `TouchAction` enum in
`src/algo/algo_base.py` (DOWN=0, UP=1, MOVE=2, CANCEL=3, OUTSIDE=4,
POINTER_DOWN=5, POINTER_UP=6, HOVER_MOVE=7). -/
inductive TouchAction where
  | DOWN
  | UP
  | MOVE
  | CANCEL
  | OUTSIDE
  | POINTER_DOWN
  | POINTER_UP
  | HOVER_MOVE
  deriving DecidableEq

/-- The integer value of a `TouchAction`, as in the Python enum. -/
def TouchAction.val : TouchAction → ℕ
  | .DOWN => 0
  | .UP => 1
  | .MOVE => 2
  | .CANCEL => 3
  | .OUTSIDE => 4
  | .POINTER_DOWN => 5
  | .POINTER_UP => 6
  | .HOVER_MOVE => 7

/-- `TouchAction(n)` in Python: enum lookup, raising (here `none`) on a
value outside `0..7`. -/
def TouchAction.ofNat? : ℕ → Option TouchAction
  | 0 => some .DOWN
  | 1 => some .UP
  | 2 => some .MOVE
  | 3 => some .CANCEL
  | 4 => some .OUTSIDE
  | 5 => some .POINTER_DOWN
  | 6 => some .POINTER_UP
  | 7 => some .HOVER_MOVE
  | _ => none

/-- One virtual touch event (`VirtualTouchEvent` in
`src/algo/algo_base.py`).  The position is a pair of Python floats;
`struct.pack`/`unpack` with format `d` is bit-exact on the underlying
IEEE-754 representation, so the two coordinates are modelled by their
64-bit patterns `xBits`, `yBits`. -/
structure VirtualTouchEvent where
  action : TouchAction
  pointerId : ℕ
  xBits : ℕ
  yBits : ℕ
  deriving DecidableEq

/-- Logical screen resolution (`ScreenUtil` in `src/algo/algo_base.py`).
The derived field `flick_radius = 0.1 * height` is not used by the
serializer or the remapper and is omitted. -/
structure ScreenUtil where
  width : ℕ
  height : ℕ
  deriving DecidableEq

/-- A planned timeline: `RawAnswerType` in `src/algo/algo_base.py`,
`list[tuple[int, list[VirtualTouchEvent]]]`. -/
abbrev RawAnswerType := List (Int × List VirtualTouchEvent)

/-- Big-endian encoding of `n % 256^k` on `k` bytes (the byte layout
produced by `struct.pack` for the unsigned formats). -/
def beBytes : ℕ → ℕ → List ℕ
  | 0, _ => []
  | k + 1, n => beBytes k (n / 256) ++ [n % 256]

/-- Big-endian decoding of a byte list. -/
def fromBE (bs : List ℕ) : ℕ :=
  bs.foldl (fun a b => a * 256 + b) 0

/-- `VirtualTouchEvent.to_serializable`: `struct.pack('!BIdd', action,
pointer_id, x, y)`.  `pack` raises (here `none`) when the pointer id
does not fit an unsigned 32-bit integer; the action value is an enum
member and always fits a byte. -/
def to_serializable (e : VirtualTouchEvent) : Option (List ℕ) :=
  if e.pointerId < 2 ^ 32 then
    some ([e.action.val] ++ beBytes 4 e.pointerId ++ beBytes 8 e.xBits ++ beBytes 8 e.yBits)
  else none

/-- `VirtualTouchEvent.from_serializable`: `struct.unpack('!BIdd', data)`,
which raises (here `none`) unless `data` is exactly 21 bytes, followed by
the `TouchAction(action)` enum lookup. -/
def from_serializable (data : List ℕ) : Option VirtualTouchEvent :=
  if data.length = 21 then
    match TouchAction.ofNat? (fromBE (data.take 1)) with
    | none => none
    | some a =>
      some ⟨a, fromBE ((data.drop 1).take 4),
            fromBE ((data.drop 5).take 8), fromBE ((data.drop 13).take 8)⟩
  else none

/-- The cache magic `b'PSAP'`. -/
def magicBytes : List ℕ := [80, 83, 65, 80]

/-- `struct.pack('!i', ts)`: big-endian two's-complement on 4 bytes,
raising (here `none`) when `ts` is outside the signed 32-bit range. -/
def i32be? (ts : Int) : Option (List ℕ) :=
  if -(2 ^ 31) ≤ ts ∧ ts < 2 ^ 31 then some (beBytes 4 (ts % 2 ^ 32).toNat) else none

/-- `struct.unpack('!i', bs)`: big-endian two's-complement decoding. -/
def decodeI32 (bs : List ℕ) : Int :=
  if fromBE bs < 2 ^ 31 then (fromBE bs : ℤ) else (fromBE bs : ℤ) - 2 ^ 32

/-- Serialization of the events of one frame, in order (the inner loop
of `dump_data`). -/
def dump_events : List VirtualTouchEvent → Option (List ℕ)
  | [] => some []
  | e :: es => do
    let b ← to_serializable e
    let r ← dump_events es
    pure (b ++ r)

/-- Serialization of the records of a timeline (the outer loop of
`dump_data`): each record is `struct.pack('!iB', ts, len(events))`
followed by the serialized events.  `pack` with format `B` raises
(here `none`) when a frame has more than 255 events. -/
def dump_records : RawAnswerType → Option (List ℕ)
  | [] => some []
  | (ts, events) :: rest => do
    let tsb ← i32be? ts
    let cb ← if events.length ≤ 255 then some [events.length] else none
    let eb ← dump_events events
    let rb ← dump_records rest
    pure (tsb ++ cb ++ eb ++ rb)

/-- `dump_data(screen, ans)`: magic, `struct.pack('!II', width, height)`,
then the records. -/
def dump_data (screen : ScreenUtil) (ans : RawAnswerType) : Option (List ℕ) :=
  if screen.width < 2 ^ 32 ∧ screen.height < 2 ^ 32 then do
    let rb ← dump_records ans
    pure (magicBytes ++ beBytes 4 screen.width ++ beBytes 4 screen.height ++ rb)
  else none

/-- The event-reading loop of `load_data`: each event is read with
`reader.read(21)` and unpacked; a short read makes `unpack` raise
(here `none`). -/
def read_events : ℕ → List ℕ → Option (List VirtualTouchEvent × List ℕ)
  | 0, bs => some ([], bs)
  | n + 1, bs =>
    match from_serializable (bs.take 21) with
    | none => none
    | some e =>
      match read_events n (bs.drop 21) with
      | none => none
      | some (es, rest) => some (e :: es, rest)

/-- The record-reading loop of `load_data`.  `reader.read(4)` returning
an empty result breaks the loop normally; returning 1–3 bytes makes
`unpack('!i', ...)` raise.  The count byte is read with the SIGNED
format `'!b'`, so a byte value of 128 or more is interpreted as a
negative count and `range(length)` yields no events.  The `fuel`
argument bounds the recursion; every iteration consumes at least five
bytes, so `fuel = length of the input` always suffices. -/
def load_loop : ℕ → List ℕ → Option RawAnswerType
  | _, [] => some []
  | 0, _ :: _ => none
  | fuel + 1, b0 :: bs1 =>
    if (b0 :: bs1).length < 4 then none
    else
      match (b0 :: bs1).drop 4 with
      | [] => none
      | b :: bs2 =>
        match read_events (if b < 128 then b else 0) bs2 with
        | none => none
        | some (events, rest) =>
          match load_loop fuel rest with
          | none => none
          | some tl => some ((decodeI32 ((b0 :: bs1).take 4), events) :: tl)

/-- `load_data(content)`: asserts the magic, unpacks width and height
with `struct.unpack('!II', reader.read(8))` (which raises on a short
read), then runs the record loop. -/
def load_data (content : List ℕ) : Option (ScreenUtil × RawAnswerType) :=
  if content.take 4 = magicBytes then
    if (content.drop 4).length < 8 then none
    else
      match load_loop content.length ((content.drop 4).drop 8) with
      | none => none
      | some tl =>
        some (⟨fromBE ((content.drop 4).take 4), fromBE (((content.drop 4).drop 4).take 4)⟩, tl)
  else none

/-- The all-zero touch event (action DOWN, pointer 0, both coordinate
bit patterns 0, i.e. position `(0.0, 0.0)`). -/
def evZero : VirtualTouchEvent := ⟨.DOWN, 0, 0, 0⟩

/-- Failing input for the cache round-trip: a 1×1 screen. -/
def c1Screen : ScreenUtil := ⟨1, 1⟩

/-- Failing input for the cache round-trip: a single frame at `ts = 0`
holding 128 events.  `dump_data` writes the count 128 with the
unsigned format `'!B'`; `load_data` reads it back with the signed
format `'!b'`, obtaining −128. -/
def c1Answer : RawAnswerType := [(0, List.replicate 128 evZero)]

/-- Failing input for claim C8: a well-formed header followed by a
record that declares 200 events (`> 127`) and is truncated before any
event bytes. -/
def c8Truncated : List ℕ :=
  magicBytes ++ beBytes 4 1 ++ beBytes 4 1 ++ (beBytes 4 0 ++ [200])

/-!
Keyframe tracks, from `src/bamboo.py`.  Timestamps and scalar values
are Python floats, modelled as `ℚ`; track values are any interpolable
type `V` (instantiated at `float` and at `Position`, i.e. `complex`).
-/

/-- The relative tolerance of `math.isclose` (default `rel_tol=1e-9`,
`abs_tol=0.0`). -/
def relTol : ℚ := 1 / 1000000000

/-- `equal(a, b)` in `src/bamboo.py`: `math.isclose(a, b)`, which for
finite values is `|a - b| <= max(rel_tol * max(|a|, |b|), abs_tol)`
with the default tolerances `rel_tol = 1e-9`, `abs_tol = 0.0`. -/
def equal (a b : ℚ) : Prop := |a - b| ≤ relTol * max |a| |b|

instance (a b : ℚ) : Decidable (equal a b) := by
  unfold equal
  exact inferInstance

/-- `bisect.bisect_left(a, x, key=key)` under its documented contract
(the list is sorted by key): the index of the first element whose key
is not below `x`, i.e. the length of the longest prefix of elements
with key below `x`. -/
def bisect_left : List α → (α → ℚ) → ℚ → ℕ
  | [], _, _ => 0
  | j :: rest, key, x => if key j < x then bisect_left rest key x + 1 else 0

/-- One keyframe (`Joint` in `src/bamboo.py`): timestamp, value, and
the easing of the outgoing segment.  Easing functions are Python
callables `float → float`, modelled as `ℚ → ℚ`. -/
structure Joint (V : Type) where
  timestamp : ℚ
  value : V
  easing : ℚ → ℚ

/-- The `LVALUE` easing.  Modelled from the spec: `easing.py` is not
among the given sources; the spec defines `LVALUE(t) = 0` for `t < 1`
and `= 1` at `t = 1` ("hold previous value until the next joint"). -/
def LVALUE (t : ℚ) : ℚ := if t < 1 then 0 else 1

/-- A `LivingBamboo` track is its ordered joint list. -/
abbrev LivingBamboo (V : Type) := List (Joint V)

/-- `list.insert(i, a)` for an index `i ≤ len`. -/
def insertAt (l : List α) (i : ℕ) (a : α) : List α :=
  l.take i ++ a :: l.drop i

/-- Python `l[i - 1]` for `i ≤ len`: ordinary access for `i ≥ 1`, and
the negative index `-1` (the last element, `none` when empty) for
`i = 0`. -/
def pyPrev (l : List α) (i : ℕ) : Option α :=
  if i = 0 then l.getLast? else l[i - 1]?

/-- `LivingBamboo.cut(timestamp, value, easing=None)`: insert a joint
at its sorted position, except that a neighbouring joint whose
timestamp is `equal` to the new one is overwritten in place (keeping
its own timestamp).  A missing easing defaults to `LVALUE`. -/
def cut (js : LivingBamboo V) (timestamp : ℚ) (value : V)
    (easing? : Option (ℚ → ℚ)) : LivingBamboo V :=
  let easing := easing?.getD LVALUE
  let ip := bisect_left js (fun j => j.timestamp) timestamp
  match js with
  | [] => [⟨timestamp, value, easing⟩]
  | _ :: _ =>
    if ip = js.length then
      match js[ip - 1]? with
      | some jp =>
        if equal jp.timestamp timestamp then js.set (ip - 1) ⟨jp.timestamp, value, easing⟩
        else insertAt js ip ⟨timestamp, value, easing⟩
      | none => insertAt js ip ⟨timestamp, value, easing⟩
    else
      match js[ip]? with
      | some ji =>
        if equal ji.timestamp timestamp then js.set ip ⟨ji.timestamp, value, easing⟩
        else if ip ≠ 0 then
          match js[ip - 1]? with
          | some jp =>
            if equal jp.timestamp timestamp then js.set (ip - 1) ⟨jp.timestamp, value, easing⟩
            else insertAt js ip ⟨timestamp, value, easing⟩
          | none => insertAt js ip ⟨timestamp, value, easing⟩
        else insertAt js ip ⟨timestamp, value, easing⟩
      | none => insertAt js ip ⟨timestamp, value, easing⟩

/-- `LivingBamboo.embed(start, end, end_value, easing)`.  Python list
semantics are mirrored exactly, including the access
`joints[insert_point - 1]` resolving through the negative index `-1`
to the last joint when `insert_point = 0`, and the `IndexError`
(`none`) on an empty track when the start lies past all joints. -/
def embed (js : LivingBamboo V) (start finish : ℚ) (end_value : V)
    (easing : ℚ → ℚ) : Option (LivingBamboo V) :=
  let ip := bisect_left js (fun j => j.timestamp) start
  match js[ip]? with
  | some ji =>
    if equal ji.timestamp start then
      let js1 := js.set ip ⟨ji.timestamp, ji.value, easing⟩
      if ip + 1 ≥ js1.length then some (insertAt js1 (ip + 1) ⟨finish, end_value, ji.easing⟩)
      else
        match js1[ip + 1]? with
        | some jn =>
          if equal jn.timestamp finish then some js1
          else some (insertAt js1 (ip + 1) ⟨finish, end_value, ji.easing⟩)
        | none => some (insertAt js1 (ip + 1) ⟨finish, end_value, ji.easing⟩)
    else
      if equal ji.timestamp finish then
        let js1 := js.set ip ⟨ji.timestamp, end_value, ji.easing⟩
        match pyPrev js1 ip with
        | none => none
        | some jp => some (insertAt js1 ip ⟨start, jp.value, easing⟩)
      else
        match pyPrev js ip with
        | none => none
        | some jp0 =>
          match pyPrev (insertAt js ip ⟨finish, end_value, jp0.easing⟩) ip with
          | none => none
          | some jp1 =>
            some (insertAt (insertAt js ip ⟨finish, end_value, jp0.easing⟩) ip
              ⟨start, jp1.value, easing⟩)
  | none =>
    match js.getLast? with
    | none => none
    | some last =>
      some (js ++ [⟨start, last.value, easing⟩, ⟨finish, end_value, last.easing⟩])

/-- `LivingBamboo.__matmul__(time)` (evaluation, the `@` operator).
Python raises on an empty track (`joints[-1]` of an empty list) and on
a zero-length segment (`ZeroDivisionError`); those cases are `none`.
Python's `value * scalar` on track values is the scalar action. -/
def living_matmul [AddCommGroup V] [Module ℚ V] (js : LivingBamboo V)
    (time : ℚ) : Option V :=
  let right := bisect_left js (fun j => j.timestamp) time
  match js[right]? with
  | none => (js[right - 1]?).map (fun j => j.value)
  | some jr =>
    if jr.timestamp = time ∨ right = 0 then some jr.value
    else
      match js[right - 1]? with
      | none => none
      | some jl =>
        if jr.timestamp = jl.timestamp then none
        else some (jl.value +
          (jl.easing ((time - jl.timestamp) / (jr.timestamp - jl.timestamp))) •
            (jr.value - jl.value))

/-- Strictly increasing joint timestamps: the documented invariant of
a well-formed track. -/
def SortedJoints (js : LivingBamboo V) : Prop :=
  js.Pairwise (fun a b => a.timestamp < b.timestamp)

instance (js : LivingBamboo V) : Decidable (SortedJoints js) :=
  inferInstanceAs (Decidable (js.Pairwise _))

/-- One segment of a `BrokenBamboo` (`Segment` in `src/bamboo.py`);
`stop` is the source field `end`. -/
structure Segment (V : Type) where
  start : ℚ
  stop : ℚ
  start_value : V
  end_value : V

/-- A `BrokenBamboo` track is its segment list, kept sorted by start. -/
abbrev BrokenBamboo (V : Type) := List (Segment V)

/-- The interpolation tail of `BrokenBamboo.__matmul__`:
`seg = segments[right - 1]` (the negative index resolving to the last
segment when `right = 0`, and raising — `none` — on an empty list),
then linear interpolation, raising (`none`) on a zero-length
segment. -/
def broken_interp [AddCommGroup V] [Module ℚ V] (segs : BrokenBamboo V)
    (right : ℕ) (time : ℚ) : Option V :=
  match pyPrev segs right with
  | none => none
  | some seg =>
    if seg.stop = seg.start then none
    else some (seg.start_value +
      ((time - seg.start) / (seg.stop - seg.start)) • (seg.end_value - seg.start_value))

/-- `BrokenBamboo.__matmul__(time)`: if the segment at the bisection
point starts `equal` to the query time, return its start value, else
interpolate on the segment before the bisection point — with NO
clamping: the interpolation parameter may lie outside `[0, 1]`. -/
def broken_matmul [AddCommGroup V] [Module ℚ V] (segs : BrokenBamboo V)
    (time : ℚ) : Option V :=
  let right := bisect_left segs (fun s => s.start) time
  match segs[right]? with
  | some sr =>
    if equal sr.start time then some sr.start_value
    else broken_interp segs right time
  | none => broken_interp segs right time

/-- The identity easing (the `linear` easing function). -/
def idEasing (t : ℚ) : ℚ := t

/-- Counterexample track for claim C2: joints `(0, 0)` and `(10, 10)`
with linear easing, so the track evaluates to `5` at time `5`. -/
def c2Track : LivingBamboo ℚ := [⟨0, 0, idEasing⟩, ⟨10, 10, idEasing⟩]

/-- Counterexample track for claim C4: a single joint whose timestamp
`1 + 1e-10 = 10000000001/10000000000` is within `isclose` tolerance of
`1` but not equal to it. -/
def c4Track : LivingBamboo ℚ := [⟨10000000001 / 10000000000, 5, LVALUE⟩]

/-- Counterexample track for claim C5: one segment from `(0, 10)` to
`(1, 20)`. -/
def c5Segs : BrokenBamboo ℚ := [⟨0, 1, 10, 20⟩]

/-!
Geometry, from `src/algo/algo_base.py`.  Python `complex` positions
are modelled as pairs of rationals (exact arithmetic).
-/

/-- A 2-D position or direction: Python `complex` in exact
arithmetic. -/
structure Pos where
  re : ℚ
  im : ℚ
  deriving DecidableEq

/-- Complex addition. -/
def Pos.add (a b : Pos) : Pos := ⟨a.re + b.re, a.im + b.im⟩

/-- Complex subtraction. -/
def Pos.sub (a b : Pos) : Pos := ⟨a.re - b.re, a.im - b.im⟩

/-- Complex multiplication. -/
def Pos.mul (a b : Pos) : Pos :=
  ⟨a.re * b.re - a.im * b.im, a.re * b.im + a.im * b.re⟩

/-- Complex conjugation (`complex.conjugate()`). -/
def Pos.conj (a : Pos) : Pos := ⟨a.re, -a.im⟩

/-- The imaginary unit `1j`. -/
def Pos.unitI : Pos := ⟨0, 1⟩

/-- Python `complex / int`: componentwise division by the count. -/
def Pos.divNat (a : Pos) (n : ℕ) : Pos := ⟨a.re / n, a.im / n⟩

/-- `det(a, b) = (a * b.conjugate() * 1j).real` from the source. -/
def det (a b : Pos) : ℚ := ((a.mul b.conj).mul Pos.unitI).re

/-- `intersect(line1, line2)` from the source: the intersection of the
two infinite lines through the endpoint pairs, `None` when the
determinant vanishes (parallel lines). -/
def intersect (line1 line2 : Pos × Pos) : Option Pos :=
  if det ⟨(line1.1.sub line1.2).re, (line2.1.sub line2.2).re⟩
      ⟨(line1.1.sub line1.2).im, (line2.1.sub line2.2).im⟩ = 0 then none
  else
    some ⟨det ⟨det line1.1 line1.2, det line2.1 line2.2⟩
            ⟨(line1.1.sub line1.2).re, (line2.1.sub line2.2).re⟩ /
          det ⟨(line1.1.sub line1.2).re, (line2.1.sub line2.2).re⟩
            ⟨(line1.1.sub line1.2).im, (line2.1.sub line2.2).im⟩,
          det ⟨det line1.1 line1.2, det line2.1 line2.2⟩
            ⟨(line1.1.sub line1.2).im, (line2.1.sub line2.2).im⟩ /
          det ⟨(line1.1.sub line1.2).re, (line2.1.sub line2.2).re⟩
            ⟨(line1.1.sub line1.2).im, (line2.1.sub line2.2).im⟩⟩

/-- `ScreenUtil.visible(pos)`:
`0 <= pos.real <= width and 0 <= pos.imag <= height`. -/
def ScreenUtil.visible (su : ScreenUtil) (pos : Pos) : Prop :=
  0 ≤ pos.re ∧ pos.re ≤ (su.width : ℚ) ∧ 0 ≤ pos.im ∧ pos.im ≤ (su.height : ℚ)

instance (su : ScreenUtil) (pos : Pos) : Decidable (su.visible pos) := by
  unfold ScreenUtil.visible
  infer_instance

/-- One `if jᵢ is not None and (range check): s += jᵢ; cnt += 1` block
of `remap`. -/
def accumHit (sc : Pos × ℕ) (j : Option Pos) (ok : Pos → Prop) [DecidablePred ok] :
    Pos × ℕ :=
  match j with
  | some p => if ok p then (sc.1.add p, sc.2 + 1) else sc
  | none => sc

/-- The sum `s` and count `cnt` accumulated over the four edge
intersections in `remap`. -/
def remapAccum (su : ScreenUtil) (p rotation : Pos) : Pos × ℕ :=
  accumHit (accumHit (accumHit (accumHit (⟨⟨0, 0⟩, 0⟩ : Pos × ℕ)
    (intersect (p, p.add (rotation.mul Pos.unitI)) (⟨0, 0⟩, ⟨(su.width : ℚ), 0⟩))
    (fun j => 0 ≤ j.re ∧ j.re ≤ (su.width : ℚ)))
    (intersect (p, p.add (rotation.mul Pos.unitI)) (⟨0, 0⟩, ⟨0, (su.height : ℚ)⟩))
    (fun j => 0 ≤ j.im ∧ j.im ≤ (su.height : ℚ)))
    (intersect (p, p.add (rotation.mul Pos.unitI))
      (⟨(su.width : ℚ), 0⟩, ⟨(su.width : ℚ), (su.height : ℚ)⟩))
    (fun j => 0 ≤ j.im ∧ j.im ≤ (su.height : ℚ)))
    (intersect (p, p.add (rotation.mul Pos.unitI))
      (⟨0, (su.height : ℚ)⟩, ⟨(su.width : ℚ), (su.height : ℚ)⟩))
    (fun j => 0 ≤ j.re ∧ j.re ≤ (su.width : ℚ))

/-- `ScreenUtil.remap(p, rotation)`: visible points are returned
unchanged; otherwise the line through `p` and `q = p + rotation*1j` is
intersected with the four screen-edge lines, the in-range hits are
summed, and the result is the screen centre when the SUM `s` compares
equal to `0`, else `s / cnt`. -/
def ScreenUtil.remap (su : ScreenUtil) (p rotation : Pos) : Pos :=
  if su.visible p then p
  else if (remapAccum su p rotation).1 = ⟨0, 0⟩ then
    ⟨(su.width : ℚ) / 2, (su.height : ℚ) / 2⟩
  else (remapAccum su p rotation).1.divNat (remapAccum su p rotation).2

/-- The list of in-range edge intersections (the specification's
reading of the accumulation). -/
def optHit (j : Option Pos) (ok : Pos → Prop) [DecidablePred ok] : List Pos :=
  match j with
  | some p => if ok p then [p] else []
  | none => []

/-- All in-range intersection points of `remap`, in edge order. -/
def remapHits (su : ScreenUtil) (p rotation : Pos) : List Pos :=
  optHit (intersect (p, p.add (rotation.mul Pos.unitI)) (⟨0, 0⟩, ⟨(su.width : ℚ), 0⟩))
    (fun j => 0 ≤ j.re ∧ j.re ≤ (su.width : ℚ)) ++
  optHit (intersect (p, p.add (rotation.mul Pos.unitI)) (⟨0, 0⟩, ⟨0, (su.height : ℚ)⟩))
    (fun j => 0 ≤ j.im ∧ j.im ≤ (su.height : ℚ)) ++
  optHit (intersect (p, p.add (rotation.mul Pos.unitI))
      (⟨(su.width : ℚ), 0⟩, ⟨(su.width : ℚ), (su.height : ℚ)⟩))
    (fun j => 0 ≤ j.im ∧ j.im ≤ (su.height : ℚ)) ++
  optHit (intersect (p, p.add (rotation.mul Pos.unitI))
      (⟨0, (su.height : ℚ)⟩, ⟨(su.width : ℚ), (su.height : ℚ)⟩))
    (fun j => 0 ≤ j.re ∧ j.re ≤ (su.width : ℚ))

/-- Sum of a list of positions. -/
def posSum (l : List Pos) : Pos := l.foldl Pos.add ⟨0, 0⟩

/-!
Judge lines, from `src/pec.py`.  `PecJudgeLine.pos` evaluates the
rotation track (radians, a Python float — modelled as `ℝ`) and the
position track (`complex` — modelled as `ℂ`) at the given time.  The
note lists, the chart back-reference and `beat_duration` do not enter
`pos` and are omitted.
-/

/-- The two keyframe tracks of a `PecJudgeLine` that determine its
striking position. -/
structure PecJudgeLine where
  angle : LivingBamboo ℝ
  position : LivingBamboo ℂ

/-- `PecJudgeLine.pos(seconds, offset)`:
`(self.position @ seconds) + cmath.exp((self.angle @ seconds) * 1j) * offset`.
Evaluation of either track on an empty list raises, hence `none`. -/
noncomputable def PecJudgeLine.pos (line : PecJudgeLine) (seconds : ℚ) (offset : ℂ) :
    Option ℂ :=
  match living_matmul line.angle seconds, living_matmul line.position seconds with
  | some a, some p => some (p + Complex.exp (a * Complex.I) * offset)
  | _, _ => none

/-- Counterexample inputs for claim C6: a 100×100 screen and the
off-screen point `(-1, 1)` with direction `(-1, -1)`, whose remap line
passes through the corner `(0, 0)`. -/
def c6Screen : ScreenUtil := ⟨100, 100⟩

/-- Witness judge line for claim C9: constant zero angle and constant
zero position. -/
noncomputable def c9Line : PecJudgeLine :=
  ⟨[⟨0, (0 : ℝ), fun t => t⟩], [⟨0, (0 : ℂ), fun t => t⟩]⟩

/-! ## Theorems -/

/-- `fromBE` undoes `beBytes` below the range bound. -/
theorem fromBE_beBytes : ∀ (k n : ℕ), n < 256 ^ k → fromBE (beBytes k n) = n := by
  intro k
  induction k with
  | zero => intro n hn; interval_cases n; rfl
  | succ k ih =>
    intro n hn
    have hdiv : n / 256 < 256 ^ k := by
      rw [Nat.div_lt_iff_lt_mul (by norm_num)]
      calc n < 256 ^ (k + 1) := hn
        _ = 256 ^ k * 256 := by ring
    have hfold : ∀ (bs : List ℕ) (a : ℕ),
        List.foldl (fun a b => a * 256 + b) a (bs ++ [n % 256]) =
          (List.foldl (fun a b => a * 256 + b) a bs) * 256 + n % 256 := by
      intro bs
      induction bs with
      | nil => intro a; rfl
      | cons x xs ihx => intro a; simp only [List.cons_append, List.foldl_cons, ihx]
    show fromBE (beBytes k (n / 256) ++ [n % 256]) = n
    unfold fromBE
    rw [hfold]
    have := ih (n / 256) hdiv
    unfold fromBE at this
    rw [this]
    omega

/-- `beBytes k n` has exactly `k` bytes. -/
theorem beBytes_length : ∀ (k n : ℕ), (beBytes k n).length = k := by
  intro k
  induction k with
  | zero => intro n; rfl
  | succ k ih => intro n; simp [beBytes, ih]

/-- The enum lookup is a left inverse of taking the enum value. -/
theorem ofNat_val (a : TouchAction) : TouchAction.ofNat? a.val = some a := by
  cases a <;> rfl

/-- Per-event round trip, as a reusable lemma: a serialized event is 21
bytes and deserializes to the original event. -/
theorem to_from_serializable (e : VirtualTouchEvent) (hp : e.pointerId < 2 ^ 32)
    (hx : e.xBits < 2 ^ 64) (hy : e.yBits < 2 ^ 64) :
    to_serializable e =
      some ([e.action.val] ++ beBytes 4 e.pointerId ++ beBytes 8 e.xBits ++ beBytes 8 e.yBits) ∧
    ([e.action.val] ++ beBytes 4 e.pointerId ++ beBytes 8 e.xBits ++ beBytes 8 e.yBits).length = 21 ∧
    from_serializable
      ([e.action.val] ++ beBytes 4 e.pointerId ++ beBytes 8 e.xBits ++ beBytes 8 e.yBits) = some e := by
  set bs := [e.action.val] ++ beBytes 4 e.pointerId ++ beBytes 8 e.xBits ++ beBytes 8 e.yBits with hbs
  have hlen : bs.length = 21 := by
    simp [hbs, beBytes_length]
  refine ⟨by rw [to_serializable, if_pos hp], hlen, ?_⟩
  have htake1 : bs.take 1 = [e.action.val] := by
    rw [hbs]
    rw [show ([e.action.val] ++ beBytes 4 e.pointerId ++ beBytes 8 e.xBits ++ beBytes 8 e.yBits) =
      [e.action.val] ++ (beBytes 4 e.pointerId ++ beBytes 8 e.xBits ++ beBytes 8 e.yBits) by simp]
    exact List.take_left' rfl
  have hdrop1 : bs.drop 1 = beBytes 4 e.pointerId ++ (beBytes 8 e.xBits ++ beBytes 8 e.yBits) := by
    rw [hbs]
    rw [show ([e.action.val] ++ beBytes 4 e.pointerId ++ beBytes 8 e.xBits ++ beBytes 8 e.yBits) =
      [e.action.val] ++ (beBytes 4 e.pointerId ++ (beBytes 8 e.xBits ++ beBytes 8 e.yBits)) by simp]
    exact List.drop_left' rfl
  have htake4 : (bs.drop 1).take 4 = beBytes 4 e.pointerId := by
    rw [hdrop1]; exact List.take_left' (beBytes_length 4 _)
  have hdrop5 : bs.drop 5 = beBytes 8 e.xBits ++ beBytes 8 e.yBits := by
    have : bs.drop 5 = (bs.drop 1).drop 4 := by
      rw [List.drop_drop]
    rw [this, hdrop1]
    exact List.drop_left' (beBytes_length 4 _)
  have htake8 : (bs.drop 5).take 8 = beBytes 8 e.xBits := by
    rw [hdrop5]; exact List.take_left' (beBytes_length 8 _)
  have hdrop13 : bs.drop 13 = beBytes 8 e.yBits := by
    have h1 : bs.drop 13 = (bs.drop 5).drop 8 := by rw [List.drop_drop]
    rw [h1, hdrop5, List.drop_left' (beBytes_length 8 _)]
  have htake13 : (bs.drop 13).take 8 = beBytes 8 e.yBits := by
    rw [hdrop13, List.take_of_length_le (le_of_eq (beBytes_length 8 _))]
  rw [from_serializable, if_pos hlen, htake1]
  show (match TouchAction.ofNat? (fromBE [e.action.val]) with
    | none => none
    | some a => some ⟨a, fromBE ((bs.drop 1).take 4), fromBE ((bs.drop 5).take 8),
        fromBE ((bs.drop 13).take 8)⟩) = some e
  have hact : fromBE [e.action.val] = e.action.val := by
    simp [fromBE]
  rw [hact, ofNat_val, htake4, htake8, htake13,
    fromBE_beBytes 4 _ hp, fromBE_beBytes 8 _ hx, fromBE_beBytes 8 _ hy]

/-- The serialization of the all-zero event is 21 zero bytes. -/
theorem to_serializable_evZero : to_serializable evZero = some (List.replicate 21 0) := by
  decide

/-- Serializing `k` copies of the all-zero event yields `21 * k` zero
bytes. -/
theorem dump_events_replicate :
    ∀ k, dump_events (List.replicate k evZero) = some (List.replicate (21 * k) 0) := by
  intro k
  induction k with
  | zero => rfl
  | succ k ih =>
    rw [List.replicate_succ]
    show (do
      let b ← to_serializable evZero
      let r ← dump_events (List.replicate k evZero)
      pure (b ++ r)) = some (List.replicate (21 * (k + 1)) 0)
    rw [to_serializable_evZero, ih]
    show some (List.replicate 21 0 ++ List.replicate (21 * k) 0) = _
    rw [← List.replicate_add]
    have h21 : 21 + 21 * k = 21 * (k + 1) := by ring
    rw [h21]

/-- One step of the record loop on a buffer of at least five bytes. -/
theorem load_loop_cons5 (fuel a1 a2 a3 a4 b : ℕ) (rest : List ℕ) :
    load_loop (fuel + 1) (a1 :: a2 :: a3 :: a4 :: b :: rest) =
      match read_events (if b < 128 then b else 0) rest with
      | none => none
      | some (events, more) =>
        match load_loop fuel more with
        | none => none
        | some tl => some ((decodeI32 [a1, a2, a3, a4], events) :: tl) := by
  rfl

/-- The record loop rejects any all-zero buffer whose length is not a
multiple of five: the trailing short group makes `unpack` raise. -/
theorem load_loop_zeros :
    ∀ (q r fuel : ℕ), 1 ≤ r → r ≤ 4 →
      load_loop fuel (List.replicate (5 * q + r) 0) = none := by
  intro q
  induction q with
  | zero =>
    intro r fuel h1 h4
    interval_cases r
    · cases fuel <;> rfl
    · cases fuel <;> rfl
    · cases fuel <;> rfl
    · cases fuel <;> rfl
  | succ q ih =>
    intro r fuel h1 h4
    have hrw : 5 * (q + 1) + r = 5 + (5 * q + r) := by ring
    rw [hrw, List.replicate_add]
    show load_loop fuel (0 :: 0 :: 0 :: 0 :: 0 :: List.replicate (5 * q + r) 0) = none
    cases fuel with
    | zero => rfl
    | succ fuel =>
      rw [load_loop_cons5]
      rw [if_pos (by norm_num : (0 : ℕ) < 128)]
      show (match load_loop fuel (List.replicate (5 * q + r) 0) with
            | none => none
            | some tl => some ((decodeI32 [0, 0, 0, 0], []) :: tl)) = none
      rw [ih r fuel h1 h4]

/-- The tail of the failing dump, as seen by the record loop: four
zero timestamp bytes, the count byte 128, and 128 all-zero events
(2688 zero bytes).  The count is read as the signed value −128, so no
events are consumed and the loop then misparses the 2688 zero bytes,
ending on a 3-byte group that makes `unpack('!i', ...)` raise. -/
theorem load_loop_c1tail :
    ∀ fuel, load_loop fuel (0 :: 0 :: 0 :: 0 :: 128 :: List.replicate 2688 0) = none := by
  intro fuel
  cases fuel with
  | zero => rfl
  | succ fuel =>
    rw [load_loop_cons5]
    rw [if_neg (by norm_num : ¬(128 : ℕ) < 128)]
    show (match load_loop fuel (List.replicate 2688 0) with
          | none => none
          | some tl => some ((decodeI32 [0, 0, 0, 0], []) :: tl)) = none
    have h2688 : (2688 : ℕ) = 5 * 537 + 3 := by norm_num
    rw [h2688, load_loop_zeros 537 3 fuel (by norm_num) (by norm_num)]

/-- One record of `dump_records`, given that every part serializes. -/
theorem dump_records_cons (ts : Int) (evs : List VirtualTouchEvent) (rest : RawAnswerType)
    (tsb eb rb : List ℕ) (h1 : i32be? ts = some tsb) (h2 : evs.length ≤ 255)
    (h3 : dump_events evs = some eb) (h4 : dump_records rest = some rb) :
    dump_records ((ts, evs) :: rest) = some (tsb ++ [evs.length] ++ eb ++ rb) := by
  simp only [dump_records, h1, h3, h4, Option.bind_eq_bind, Option.some_bind,
    if_pos h2, Option.pure_def]

/-- `dump_data`, given that the records serialize. -/
theorem dump_data_eq (screen : ScreenUtil) (ans : RawAnswerType) (rb : List ℕ)
    (hw : screen.width < 2 ^ 32) (hh : screen.height < 2 ^ 32)
    (h : dump_records ans = some rb) :
    dump_data screen ans =
      some (magicBytes ++ beBytes 4 screen.width ++ beBytes 4 screen.height ++ rb) := by
  show (if screen.width < 2 ^ 32 ∧ screen.height < 2 ^ 32 then do
    let rb ← dump_records ans
    pure (magicBytes ++ beBytes 4 screen.width ++ beBytes 4 screen.height ++ rb)
    else none) = _
  rw [if_pos ⟨hw, hh⟩, h]
  rfl

/-- The byte-level value of the dump of the failing input. -/
theorem dump_data_c1 :
    dump_data c1Screen c1Answer =
      some (80 :: 83 :: 65 :: 80 :: 0 :: 0 :: 0 :: 1 :: 0 :: 0 :: 0 :: 1 ::
        0 :: 0 :: 0 :: 0 :: 128 :: List.replicate 2688 0) := by
  have he : dump_events (List.replicate 128 evZero) = some (List.replicate 2688 0) := by
    have h := dump_events_replicate 128
    rwa [show 21 * 128 = 2688 from by norm_num] at h
  have hr : dump_records c1Answer =
      some ([0, 0, 0, 0] ++ [(List.replicate 128 evZero).length] ++
        List.replicate 2688 0 ++ []) :=
    dump_records_cons 0 (List.replicate 128 evZero) [] [0, 0, 0, 0] (List.replicate 2688 0) []
      rfl (by rw [List.length_replicate]; norm_num) he rfl
  have hrr : dump_records c1Answer =
      some (([0, 0, 0, 0] ++ [128]) ++ List.replicate 2688 0) := by
    rw [hr, List.length_replicate, List.append_nil]
  have hd := dump_data_eq c1Screen c1Answer _ (by decide) (by decide) hrr
  rw [hd]
  rfl

/-- `load_data` on the bytes of the failing dump raises. -/
theorem load_data_c1bytes :
    load_data (80 :: 83 :: 65 :: 80 :: 0 :: 0 :: 0 :: 1 :: 0 :: 0 :: 0 :: 1 ::
        0 :: 0 :: 0 :: 0 :: 128 :: List.replicate 2688 0) = none := by
  have h1 : (80 :: 83 :: 65 :: 80 :: (0 : ℕ) :: 0 :: 0 :: 1 :: 0 :: 0 :: 0 :: 1 ::
      0 :: 0 :: 0 :: 0 :: 128 :: List.replicate 2688 0).take 4 = magicBytes := rfl
  have h2 : ¬((80 :: 83 :: 65 :: 80 :: (0 : ℕ) :: 0 :: 0 :: 1 :: 0 :: 0 :: 0 :: 1 ::
      0 :: 0 :: 0 :: 0 :: 128 :: List.replicate 2688 0).drop 4).length < 8 := by
    show ¬((0 : ℕ) :: 0 :: 0 :: 1 :: 0 :: 0 :: 0 :: 1 ::
      0 :: 0 :: 0 :: 0 :: 128 :: List.replicate 2688 0).length < 8
    simp only [List.length_cons, List.length_replicate]
    omega
  have h3 : ((80 :: 83 :: 65 :: 80 :: (0 : ℕ) :: 0 :: 0 :: 1 :: 0 :: 0 :: 0 :: 1 ::
      0 :: 0 :: 0 :: 0 :: 128 :: List.replicate 2688 0).drop 4).drop 8 =
      0 :: 0 :: 0 :: 0 :: 128 :: List.replicate 2688 0 := rfl
  rw [load_data, if_pos h1, if_neg h2, h3, load_loop_c1tail]

/-- Claim C1 (code bug).  The cache round trip
`load_data (dump_data screen timeline)` is NOT the identity on every
timeline whose events have action codes 0..7, u32 pointer ids and
finite coordinates: for the timeline consisting of one frame at
`ts = 0` holding 128 all-zero events, `dump_data` succeeds (writing
the count 128 with the unsigned byte format `'!B'`) while `load_data`
reads the count back with the signed format `'!b'` as −128, consumes
no events, misparses the 2688 event bytes as further records, and
finally raises on a trailing 3-byte group. -/
theorem c1_cache_roundtrip_bug :
    dump_data c1Screen c1Answer ≠ none ∧
    (dump_data c1Screen c1Answer).bind load_data = none := by
  rw [dump_data_c1]
  refine ⟨Option.some_ne_none _, ?_⟩
  rw [Option.some_bind]
  exact load_data_c1bytes

/-- Claim C8 (code bug).  First conjunct: the failing input — a
well-formed header followed by a record declaring 200 events and
truncated before any event bytes — is accepted by `load_data` and
parsed as the frame `(0, [])`, because the count byte 200 is read with
the signed format `'!b'` as −56 and `range(-56)` yields no events; the
claim instead requires an error on every input truncated mid-record.
Second and third conjuncts: the parts of the claim that do hold on the
code — a missing magic is rejected, and an input truncated inside the
event bytes of a record with a small declared count is rejected. -/
theorem c8_truncation_not_rejected :
    load_data c8Truncated = some (⟨1, 1⟩, [((0 : Int), [])]) ∧
    load_data [0, 0, 0, 0] = none ∧
    load_data (magicBytes ++ beBytes 4 1 ++ beBytes 4 1 ++ (beBytes 4 0 ++ [1])) = none := by
  refine ⟨by decide, by decide, by decide⟩

/-- Claim C10 (confirmed).  For every event with action code 0..7 (all
`TouchAction` values), pointer id below 2^32 and finite coordinates
(whose IEEE-754 patterns are 64-bit), `to_serializable` produces
exactly 21 bytes and `from_serializable` restores the original event
bit-exactly. -/
theorem c10_event_roundtrip (e : VirtualTouchEvent) (hp : e.pointerId < 2 ^ 32)
    (hx : e.xBits < 2 ^ 64) (hy : e.yBits < 2 ^ 64) :
    ∃ bs, to_serializable e = some bs ∧ bs.length = 21 ∧ from_serializable bs = some e := by
  obtain ⟨h1, h2, h3⟩ := to_from_serializable e hp hx hy
  exact ⟨_, h1, h2, h3⟩

/-- Witness for claim C10 at a concrete event. -/
theorem c10_event_roundtrip_witness :
    ∃ bs, to_serializable ⟨.MOVE, 5, 3, 9⟩ = some bs ∧ bs.length = 21 ∧
      from_serializable bs = some ⟨.MOVE, 5, 3, 9⟩ :=
  c10_event_roundtrip ⟨.MOVE, 5, 3, 9⟩ (by norm_num) (by norm_num) (by norm_num)

/-! ### Properties of the `isclose` tolerance -/

/-- `equal` is reflexive. -/
theorem equal_refl (a : ℚ) : equal a a := by
  simp only [equal, relTol]
  rw [sub_self, abs_zero]
  positivity

/-- `equal` is symmetric. -/
theorem equal_symm {a b : ℚ} (h : equal a b) : equal b a := by
  simpa only [equal, abs_sub_comm, max_comm] using h

/-- `equal` is invariant under negating both arguments. -/
theorem equal_neg_iff (a b : ℚ) : equal (-a) (-b) ↔ equal a b := by
  simp only [equal, neg_sub_neg, abs_neg, abs_sub_comm, max_comm]

/-- A point between two `isclose` values is `isclose` to the first:
the tolerance is relative with factor below one, so closeness cannot
be destroyed by moving towards the other endpoint. -/
theorem equal_between {a c b : ℚ} (h1 : a ≤ c) (h2 : c ≤ b) (hab : equal a b) :
    equal a c := by
  simp only [equal, relTol] at hab ⊢
  rcases le_or_lt 0 a with ha | ha
  · have hc : (0 : ℚ) ≤ c := ha.trans h1
    have hb0 : (0 : ℚ) ≤ b := hc.trans h2
    rw [abs_of_nonneg ha, abs_of_nonneg hb0, max_eq_right (h1.trans h2),
      abs_sub_comm, abs_of_nonneg (by linarith)] at hab
    rw [abs_of_nonneg ha, abs_of_nonneg hc, max_eq_right h1,
      abs_sub_comm, abs_of_nonneg (by linarith)]
    linarith
  · rcases le_or_lt b 0 with hb0 | hb0
    · have hc0 : c ≤ 0 := h2.trans hb0
      rw [abs_of_neg ha, abs_of_nonpos hb0, max_eq_left (by linarith),
        abs_sub_comm, abs_of_nonneg (by linarith)] at hab
      rw [abs_of_neg ha, abs_of_nonpos hc0, max_eq_left (by linarith),
        abs_sub_comm, abs_of_nonneg (by linarith)]
      linarith
    · exfalso
      rw [abs_of_neg ha, abs_of_pos hb0,
        abs_sub_comm, abs_of_nonneg (by linarith)] at hab
      rcases max_cases (-a) b with ⟨e, s⟩ | ⟨e, s⟩ <;> rw [e] at hab <;> linarith

/-- The mirrored form of `equal_between`. -/
theorem equal_between' {a c b : ℚ} (h1 : b ≤ c) (h2 : c ≤ a) (hab : equal a b) :
    equal a c := by
  rw [← equal_neg_iff]
  exact equal_between (by linarith) (by linarith) ((equal_neg_iff a b).2 hab)

/-- Establish `equal a b` for `0 ≤ b ≤ a` from the tolerance bound. -/
theorem equal_of_le (a b : ℚ) (hba : b ≤ a) (hb : 0 ≤ b) (h : a - b ≤ relTol * a) :
    equal a b := by
  unfold equal
  rw [abs_of_nonneg (by linarith : (0 : ℚ) ≤ a - b), abs_of_nonneg (hb.trans hba),
    abs_of_nonneg hb, max_eq_left hba]
  exact h

/-- Refute `equal a b` for `0 ≤ b ≤ a` from the tolerance bound. -/
theorem not_equal_of_lt (a b : ℚ) (hba : b ≤ a) (hb : 0 ≤ b) (h : relTol * a < a - b) :
    ¬equal a b := by
  unfold equal
  rw [abs_of_nonneg (by linarith : (0 : ℚ) ≤ a - b), abs_of_nonneg (hb.trans hba),
    abs_of_nonneg hb, max_eq_left hba]
  linarith

/-- `equal` values are equal or on the same side of any strictly
separating point — concretely: if `equal a b` then `a = b` is not
forced, but `a ≠ b → equal` still holds; what is impossible is
`equal a b` with `a`, `b` of opposite sign.  (Only the direction used
later: `¬ equal x t` together with `equal`'s reflexivity forces
`x ≠ t`.) -/
theorem ne_of_not_equal {x t : ℚ} (h : ¬equal x t) : x ≠ t := by
  intro he
  exact h (he ▸ equal_refl x)

/-! ### Properties of `bisect_left` -/

/-- The bisection index never exceeds the length. -/
theorem bl_le_length (l : List α) (key : α → ℚ) (x : ℚ) :
    bisect_left l key x ≤ l.length := by
  induction l with
  | nil => exact Nat.le_refl 0
  | cons j rest ih =>
    rw [bisect_left]
    split
    · exact Nat.succ_le_succ ih
    · exact Nat.zero_le _

/-- `bisect_left` on a decomposition: all of `A` below `x`, head of
`B` (if any) not below `x`. -/
theorem bl_append (A B : List α) (key : α → ℚ) (x : ℚ)
    (hA : ∀ a ∈ A, key a < x) (hB : ∀ b ∈ B.head?, ¬key b < x) :
    bisect_left (A ++ B) key x = A.length := by
  induction A with
  | nil =>
    cases B with
    | nil => rfl
    | cons b B' =>
      rw [List.nil_append, bisect_left, if_neg (hB b rfl)]
      rfl
  | cons a A' ih =>
    rw [List.cons_append, bisect_left, if_pos (hA a (List.mem_cons_self _ _))]
    rw [ih (fun a ha => hA a (List.mem_cons_of_mem _ ha))]
    rfl

/-- Every element strictly before the bisection index has key below
`x`. -/
theorem bl_prefix_lt (l : List α) (key : α → ℚ) (x : ℚ) (i : ℕ)
    (h : i < bisect_left l key x) (hi : i < l.length) : key l[i] < x := by
  induction l generalizing i with
  | nil => simp at hi
  | cons j rest ih =>
    rw [bisect_left] at h
    by_cases hj : key j < x
    · rw [if_pos hj] at h
      cases i with
      | zero => simpa using hj
      | succ i =>
        have := ih i (Nat.lt_of_succ_lt_succ h) (Nat.lt_of_succ_lt_succ hi)
        simpa using this
    · rw [if_neg hj] at h
      exact absurd h (Nat.not_lt_zero i)

/-- The element at the bisection index (when it exists) has key not
below `x`. -/
theorem bl_at_not_lt : ∀ (l : List α) (key : α → ℚ) (x : ℚ)
    (hi : bisect_left l key x < l.length),
    ¬key (l.get ⟨bisect_left l key x, hi⟩) < x := by
  intro l key x
  induction l with
  | nil => intro hi; simp [bisect_left] at hi
  | cons j rest ih =>
    intro hi
    by_cases hj : key j < x
    · have hb : bisect_left (j :: rest) key x = bisect_left rest key x + 1 := by
        rw [bisect_left, if_pos hj]
      have hi2 : bisect_left rest key x < rest.length := by
        rw [hb] at hi
        exact Nat.lt_of_succ_lt_succ hi
      simp only [hb, List.get_cons_succ]
      exact ih hi2
    · have hb : bisect_left (j :: rest) key x = 0 := by
        rw [bisect_left, if_neg hj]
      simp only [hb]
      simpa using hj

/-- If the bisection index is the length, every key is below `x`. -/
theorem bl_eq_length_all_lt (l : List α) (key : α → ℚ) (x : ℚ)
    (h : bisect_left l key x = l.length) : ∀ a ∈ l, key a < x := by
  intro a ha
  obtain ⟨i, hi, rfl⟩ := List.getElem_of_mem ha
  exact bl_prefix_lt l key x i (h ▸ hi) hi

/-! ### Sorted-track index facts -/

/-- In a sorted track, timestamps are strictly monotone in the
index. -/
theorem sorted_ts_lt {js : LivingBamboo V} (hs : SortedJoints js) {i j : ℕ}
    (hij : i < j) (hj : j < js.length) :
    (js.get ⟨i, hij.trans hj⟩).timestamp < (js.get ⟨j, hj⟩).timestamp := by
  simpa using List.pairwise_iff_getElem.1 hs i j (hij.trans hj) hj hij

/-- In a sorted track, timestamps are monotone in the index. -/
theorem sorted_ts_le {js : LivingBamboo V} (hs : SortedJoints js) {i j : ℕ}
    (hij : i ≤ j) (hj : j < js.length) :
    (js.get ⟨i, Nat.lt_of_le_of_lt hij hj⟩).timestamp ≤ (js.get ⟨j, hj⟩).timestamp := by
  rcases Nat.lt_or_ge i j with h | h
  · exact le_of_lt (sorted_ts_lt hs h hj)
  · have hij2 : i = j := Nat.le_antisymm hij h
    subst hij2
    exact le_refl _

/-! ### Branch characterizations of `LivingBamboo.cut` -/

/-- `cut` on the empty track appends the new joint. -/
theorem cut_nil {V : Type} (t : ℚ) (v : V) (e? : Option (ℚ → ℚ)) :
    cut [] t v e? = [⟨t, v, e?.getD LVALUE⟩] := rfl

/-- Overwrite branch: the joint at the insertion point is `equal` to
the new timestamp. -/
theorem cut_eq_set_at {V : Type} (js : LivingBamboo V) (t : ℚ) (v : V) (e? : Option (ℚ → ℚ))
    (hlen : bisect_left js (fun j => j.timestamp) t < js.length)
    (heq : equal (js.get ⟨bisect_left js (fun j => j.timestamp) t, hlen⟩).timestamp t) :
    cut js t v e? = js.set (bisect_left js (fun j => j.timestamp) t)
      ⟨(js.get ⟨bisect_left js (fun j => j.timestamp) t, hlen⟩).timestamp, v,
        e?.getD LVALUE⟩ := by
  rcases js with _ | ⟨j0, rest⟩
  · simp [bisect_left] at hlen
  · rw [cut]
    rw [if_neg (Nat.ne_of_lt hlen)]
    rw [List.getElem?_eq_getElem hlen]
    simp only [List.get_eq_getElem] at heq ⊢
    rw [if_pos heq]

/-- Overwrite branch: the joint before the insertion point is `equal`
to the new timestamp (and the one at it is not). -/
theorem cut_eq_set_prev {V : Type} (js : LivingBamboo V) (t : ℚ) (v : V) (e? : Option (ℚ → ℚ))
    (hlen : bisect_left js (fun j => j.timestamp) t < js.length)
    (hne : ¬equal (js.get ⟨bisect_left js (fun j => j.timestamp) t, hlen⟩).timestamp t)
    (h0 : bisect_left js (fun j => j.timestamp) t ≠ 0)
    (heq : equal (js.get ⟨bisect_left js (fun j => j.timestamp) t - 1,
      Nat.lt_of_le_of_lt (Nat.sub_le _ _) hlen⟩).timestamp t) :
    cut js t v e? = js.set (bisect_left js (fun j => j.timestamp) t - 1)
      ⟨(js.get ⟨bisect_left js (fun j => j.timestamp) t - 1,
        Nat.lt_of_le_of_lt (Nat.sub_le _ _) hlen⟩).timestamp, v, e?.getD LVALUE⟩ := by
  rcases js with _ | ⟨j0, rest⟩
  · simp [bisect_left] at hlen
  · rw [cut]
    rw [if_neg (Nat.ne_of_lt hlen)]
    rw [List.getElem?_eq_getElem hlen]
    simp only [List.get_eq_getElem] at hne heq ⊢
    rw [if_neg hne, if_pos h0,
      List.getElem?_eq_getElem (Nat.lt_of_le_of_lt (Nat.sub_le _ _) hlen)]
    simp only [List.get_eq_getElem]
    rw [if_pos heq]

/-- Insert branch in the middle: no neighbouring joint is `equal` to
the new timestamp. -/
theorem cut_eq_insert_mid {V : Type} (js : LivingBamboo V) (t : ℚ) (v : V) (e? : Option (ℚ → ℚ))
    (hlen : bisect_left js (fun j => j.timestamp) t < js.length)
    (hne : ¬equal (js.get ⟨bisect_left js (fun j => j.timestamp) t, hlen⟩).timestamp t)
    (hprev : bisect_left js (fun j => j.timestamp) t = 0 ∨
      ¬equal (js.get ⟨bisect_left js (fun j => j.timestamp) t - 1,
        Nat.lt_of_le_of_lt (Nat.sub_le _ _) hlen⟩).timestamp t) :
    cut js t v e? = insertAt js (bisect_left js (fun j => j.timestamp) t)
      ⟨t, v, e?.getD LVALUE⟩ := by
  rcases js with _ | ⟨j0, rest⟩
  · simp [bisect_left] at hlen
  · rw [cut]
    rw [if_neg (Nat.ne_of_lt hlen)]
    rw [List.getElem?_eq_getElem hlen]
    simp only [List.get_eq_getElem] at hne hprev ⊢
    rw [if_neg hne]
    rcases hprev with h0 | hprev
    · rw [if_neg (by simpa using h0)]
    · by_cases h0 : bisect_left (j0 :: rest) (fun j => j.timestamp) t = 0
      · rw [if_neg (by simpa using h0)]
      · rw [if_pos h0,
          List.getElem?_eq_getElem (Nat.lt_of_le_of_lt (Nat.sub_le _ _) hlen)]
        simp only [List.get_eq_getElem]
        rw [if_neg hprev]

/-- Overwrite branch at the tail: the insertion point is the length
and the last joint is `equal` to the new timestamp. -/
theorem cut_eq_set_last {V : Type} (js : LivingBamboo V) (t : ℚ) (v : V) (e? : Option (ℚ → ℚ))
    (hne : js ≠ []) (hip : bisect_left js (fun j => j.timestamp) t = js.length)
    (heq : equal (js.get ⟨js.length - 1,
      Nat.sub_lt (List.length_pos.2 hne) Nat.one_pos⟩).timestamp t) :
    cut js t v e? = js.set (js.length - 1)
      ⟨(js.get ⟨js.length - 1,
        Nat.sub_lt (List.length_pos.2 hne) Nat.one_pos⟩).timestamp, v, e?.getD LVALUE⟩ := by
  rcases js with _ | ⟨j0, rest⟩
  · exact absurd rfl hne
  · rw [cut]
    rw [if_pos hip, hip]
    rw [List.getElem?_eq_getElem
      (Nat.sub_lt (List.length_pos.2 hne) Nat.one_pos)]
    simp only [List.get_eq_getElem] at heq ⊢
    rw [if_pos heq]

/-- Append branch: the insertion point is the length and the last
joint is not `equal` to the new timestamp. -/
theorem cut_eq_insert_last {V : Type} (js : LivingBamboo V) (t : ℚ) (v : V) (e? : Option (ℚ → ℚ))
    (hne : js ≠ []) (hip : bisect_left js (fun j => j.timestamp) t = js.length)
    (heq : ¬equal (js.get ⟨js.length - 1,
      Nat.sub_lt (List.length_pos.2 hne) Nat.one_pos⟩).timestamp t) :
    cut js t v e? = insertAt js (bisect_left js (fun j => j.timestamp) t)
      ⟨t, v, e?.getD LVALUE⟩ := by
  rcases js with _ | ⟨j0, rest⟩
  · exact absurd rfl hne
  · rw [cut]
    rw [if_pos hip, hip]
    rw [List.getElem?_eq_getElem
      (Nat.sub_lt (List.length_pos.2 hne) Nat.one_pos)]
    simp only [List.get_eq_getElem] at heq ⊢
    rw [if_neg heq]

/-! ### Derived facts about `cut` -/

/-- Replacing a joint by one with the same timestamp keeps the track
sorted. -/
theorem sorted_set_same_ts {V : Type} {js : LivingBamboo V} (hs : SortedJoints js)
    (k : ℕ) (hk : k < js.length) (v : V) (e : ℚ → ℚ) :
    SortedJoints (js.set k ⟨(js.get ⟨k, hk⟩).timestamp, v, e⟩) := by
  simp only [SortedJoints, List.pairwise_iff_getElem] at hs ⊢
  intro i j hi hj hij
  simp only [List.length_set] at hi hj
  rw [List.getElem_set, List.getElem_set]
  by_cases hik : k = i
  · subst hik
    rw [if_pos rfl, if_neg (by omega)]
    simpa using hs k j hi hj hij
  · rw [if_neg hik]
    by_cases hjk : k = j
    · subst hjk
      rw [if_pos rfl]
      simpa using hs i k hi hj hij
    · rw [if_neg hjk]
      exact hs i j hi hj hij

/-- Inserting a joint strictly between its neighbours keeps the track
sorted. -/
theorem sorted_insertAt {V : Type} {js : LivingBamboo V} (hs : SortedJoints js)
    (ip : ℕ) (a : Joint V)
    (hpre : ∀ (i : ℕ) (h : i < js.length), i < ip →
      (js.get ⟨i, h⟩).timestamp < a.timestamp)
    (hpost : ∀ (i : ℕ) (h : i < js.length), ip ≤ i →
      a.timestamp < (js.get ⟨i, h⟩).timestamp) :
    SortedJoints (insertAt js ip a) := by
  have hmem_take : ∀ x ∈ js.take ip, x.timestamp < a.timestamp := by
    intro x hx
    obtain ⟨i, hi, rfl⟩ := List.getElem_of_mem hx
    have hi2 : i < js.length := lt_of_lt_of_le hi (by simp [List.length_take])
    have hi3 : i < ip := lt_of_lt_of_le hi (by simp [List.length_take])
    rw [List.getElem_take]
    simpa using hpre i hi2 hi3
  have hmem_drop : ∀ x ∈ js.drop ip, a.timestamp < x.timestamp := by
    intro x hx
    obtain ⟨i, hi, rfl⟩ := List.getElem_of_mem hx
    have hi2 : ip + i < js.length := by
      have := hi
      simp only [List.length_drop] at this
      omega
    rw [List.getElem_drop]
    simpa using hpost (ip + i) hi2 (Nat.le_add_right _ _)
  simp only [SortedJoints, insertAt] at hs ⊢
  rw [List.pairwise_append]
  refine ⟨hs.sublist (List.take_sublist _ _), ?_, ?_⟩
  · rw [List.pairwise_cons]
    exact ⟨fun b hb => hmem_drop b hb, hs.sublist (List.drop_sublist _ _)⟩
  · intro x hx b hb
    rcases List.mem_cons.1 hb with rfl | hb2
    · exact hmem_take x hx
    · exact (hmem_take x hx).trans (hmem_drop b hb2)

/-- On a sorted track holding a joint whose timestamp is within
tolerance of `t`, `cut` overwrites a close joint in place. -/
theorem cut_overwrites_of_close {V : Type} {js : LivingBamboo V} (hs : SortedJoints js)
    (t : ℚ) (v : V) (e? : Option (ℚ → ℚ))
    (hclose : ∃ j ∈ js, equal j.timestamp t) :
    ∃ (k : ℕ) (hk : k < js.length), equal (js.get ⟨k, hk⟩).timestamp t ∧
      cut js t v e? = js.set k ⟨(js.get ⟨k, hk⟩).timestamp, v, e?.getD LVALUE⟩ := by
  obtain ⟨jstar, hmem, hcl⟩ := hclose
  obtain ⟨m, hm, rfl⟩ := List.getElem_of_mem hmem
  have hne : js ≠ [] := List.ne_nil_of_length_pos (by omega)
  rcases Nat.lt_or_ge (bisect_left js (fun j => j.timestamp) t) js.length with hlt | hge
  · by_cases hat : equal (js.get ⟨bisect_left js (fun j => j.timestamp) t, hlt⟩).timestamp t
    · exact ⟨_, hlt, hat, cut_eq_set_at js t v e? hlt hat⟩
    · have hmlt : m < bisect_left js (fun j => j.timestamp) t := by
        by_contra hge2
        push_neg at hge2
        have h1 : ¬(js.get ⟨bisect_left js (fun j => j.timestamp) t, hlt⟩).timestamp < t :=
          bl_at_not_lt js (fun j => j.timestamp) t hlt
        have h2 : (js.get ⟨bisect_left js (fun j => j.timestamp) t, hlt⟩).timestamp ≤
            (js.get ⟨m, hm⟩).timestamp := sorted_ts_le hs hge2 hm
        have h3 : equal t (js.get ⟨m, hm⟩).timestamp := by
          simpa using equal_symm hcl
        have h4 := equal_between (not_lt.1 h1) h2 h3
        exact hat (equal_symm h4)
      have hipne : bisect_left js (fun j => j.timestamp) t ≠ 0 := by omega
      have hprevlt : bisect_left js (fun j => j.timestamp) t - 1 < js.length := by omega
      have hprev_close : equal (js.get ⟨bisect_left js (fun j => j.timestamp) t - 1,
          hprevlt⟩).timestamp t := by
        have hmle : m ≤ bisect_left js (fun j => j.timestamp) t - 1 := by omega
        have h3 : (js.get ⟨m, hm⟩).timestamp ≤
            (js.get ⟨bisect_left js (fun j => j.timestamp) t - 1, hprevlt⟩).timestamp :=
          sorted_ts_le hs hmle hprevlt
        have h4 : (js.get ⟨bisect_left js (fun j => j.timestamp) t - 1,
            hprevlt⟩).timestamp < t := by
          simpa using bl_prefix_lt js (fun j => j.timestamp) t _ (by omega) hprevlt
        have h5 : equal t (js.get ⟨m, hm⟩).timestamp := by
          simpa using equal_symm hcl
        exact equal_symm (equal_between' h3 (le_of_lt h4) h5)
      refine ⟨_, hprevlt, hprev_close, ?_⟩
      have hgoal := cut_eq_set_prev js t v e? hlt hat hipne ?_
      · exact hgoal
      · exact hprev_close
  · have hip_eq : bisect_left js (fun j => j.timestamp) t = js.length :=
      le_antisymm (bl_le_length _ _ _) hge
    have hlast : js.length - 1 < js.length :=
      Nat.sub_lt (List.length_pos.2 hne) Nat.one_pos
    have hml : m ≤ js.length - 1 := by omega
    have h5 : (js.get ⟨m, hm⟩).timestamp ≤ (js.get ⟨js.length - 1, hlast⟩).timestamp :=
      sorted_ts_le hs hml hlast
    have h6 : (js.get ⟨js.length - 1, hlast⟩).timestamp < t := by
      have := bl_eq_length_all_lt js (fun j => j.timestamp) t hip_eq
        (js.get ⟨js.length - 1, hlast⟩) (List.get_mem js _ _)
      simpa using this
    have h7 : equal t (js.get ⟨m, hm⟩).timestamp := by
      simpa using equal_symm hcl
    have hlast_close : equal (js.get ⟨js.length - 1, hlast⟩).timestamp t :=
      equal_symm (equal_between' h5 (le_of_lt h6) h7)
    exact ⟨_, hlast, hlast_close, cut_eq_set_last js t v e? hne hip_eq hlast_close⟩

/-- On a track with no joint within tolerance of `t`, `cut` inserts at
the bisection point. -/
theorem cut_insert_of_no_close {V : Type} (js : LivingBamboo V) (t : ℚ) (v : V)
    (e? : Option (ℚ → ℚ)) (hno : ∀ j ∈ js, ¬equal j.timestamp t) :
    cut js t v e? =
      insertAt js (bisect_left js (fun j => j.timestamp) t) ⟨t, v, e?.getD LVALUE⟩ := by
  rcases eq_or_ne js [] with rfl | hne
  · rw [cut_nil]
    rfl
  · rcases Nat.lt_or_ge (bisect_left js (fun j => j.timestamp) t) js.length with hlt | hge
    · exact cut_eq_insert_mid js t v e? hlt (hno _ (List.get_mem js _ _))
        (Or.inr (hno _ (List.get_mem js _ _)))
    · exact cut_eq_insert_last js t v e? hne (le_antisymm (bl_le_length _ _ _) hge)
        (hno _ (List.get_mem js _ _))

/-- After any `cut`, a joint within tolerance of `t` holding the new
value and easing is present. -/
theorem cut_has_close {V : Type} (js : LivingBamboo V) (hs : SortedJoints js) (t : ℚ)
    (v : V) (e? : Option (ℚ → ℚ)) :
    ∃ j ∈ cut js t v e?, equal j.timestamp t ∧ j.value = v ∧ j.easing = e?.getD LVALUE := by
  by_cases hclose : ∃ j ∈ js, equal j.timestamp t
  · obtain ⟨k, hk, hkc, heq⟩ := cut_overwrites_of_close hs t v e? hclose
    refine ⟨⟨(js.get ⟨k, hk⟩).timestamp, v, e?.getD LVALUE⟩, ?_, hkc, rfl, rfl⟩
    rw [heq]
    have hk2 : k < (js.set k ⟨(js.get ⟨k, hk⟩).timestamp, v, e?.getD LVALUE⟩).length := by
      rw [List.length_set]
      exact hk
    have hself : (js.set k ⟨(js.get ⟨k, hk⟩).timestamp, v, e?.getD LVALUE⟩)[k] =
        ⟨(js.get ⟨k, hk⟩).timestamp, v, e?.getD LVALUE⟩ :=
      List.getElem_set_self hk2
    have hmem2 := List.getElem_mem hk2
    rwa [hself] at hmem2
  · push_neg at hclose
    rw [cut_insert_of_no_close js t v e? hclose]
    exact ⟨⟨t, v, e?.getD LVALUE⟩, by simp [insertAt], equal_refl t, rfl, rfl⟩

/-- `cut` preserves sortedness. -/
theorem cut_sorted {V : Type} {js : LivingBamboo V} (hs : SortedJoints js) (t : ℚ)
    (v : V) (e? : Option (ℚ → ℚ)) : SortedJoints (cut js t v e?) := by
  by_cases hclose : ∃ j ∈ js, equal j.timestamp t
  · obtain ⟨k, hk, _, heq⟩ := cut_overwrites_of_close hs t v e? hclose
    rw [heq]
    exact sorted_set_same_ts hs k hk v _
  · push_neg at hclose
    rw [cut_insert_of_no_close js t v e? hclose]
    apply sorted_insertAt hs
    · intro i h hi
      simpa using bl_prefix_lt js (fun j => j.timestamp) t i hi h
    · intro i h hi
      have hiplt : bisect_left js (fun j => j.timestamp) t < js.length :=
        Nat.lt_of_le_of_lt hi h
      have h1 : ¬(js.get ⟨bisect_left js (fun j => j.timestamp) t, hiplt⟩).timestamp < t :=
        bl_at_not_lt js (fun j => j.timestamp) t hiplt
      have h2 : (js.get ⟨bisect_left js (fun j => j.timestamp) t, hiplt⟩).timestamp ≠ t :=
        ne_of_not_equal (hclose _ (List.get_mem js _ _))
      have h3 : t < (js.get ⟨bisect_left js (fun j => j.timestamp) t, hiplt⟩).timestamp :=
        lt_of_le_of_ne (not_lt.1 h1) (Ne.symm h2)
      exact lt_of_lt_of_le h3 (sorted_ts_le hs hi h)

/-- Members of a list after insertion are the new element or old
members. -/
theorem mem_of_mem_insertAt {α : Type} {l : List α} {i : ℕ} {a x : α}
    (hx : x ∈ insertAt l i a) : x = a ∨ x ∈ l := by
  rw [insertAt, List.mem_append, List.mem_cons] at hx
  rcases hx with hx | hx | hx
  · exact Or.inr (List.mem_of_mem_take hx)
  · exact Or.inl hx
  · exact Or.inr (List.mem_of_mem_drop hx)

/-- Claim C4, counterexample.  On the track holding the single joint
`(1 + 1e-10, 5)`, cutting twice at `t = 1` leaves a single joint that
holds the second value but sits at timestamp `1 + 1e-10`, not at `1`:
the overwrite branch of `cut` keeps the pre-existing timestamp, so
"cut(t,v1); cut(t,v2) ≡ single joint (t,v2)" fails as stated. -/
theorem c4_cut_counterexample :
    ((cut (cut c4Track 1 7 none) 1 9 none).map fun j => (j.timestamp, j.value)) =
      [(10000000001 / 10000000000, 9)] ∧
    (10000000001 / 10000000000 : ℚ) ≠ 1 := by
  have h1 : equal (10000000001 / 10000000000 : ℚ) 1 :=
    equal_of_le _ _ (by norm_num) (by norm_num) (by rw [relTol]; norm_num)
  have hb : bisect_left [(⟨10000000001 / 10000000000, 5, LVALUE⟩ : Joint ℚ)]
      (fun j => j.timestamp) 1 = 0 := by
    rw [bisect_left, if_neg (by norm_num)]
  have hc1 : cut c4Track 1 7 none = [⟨10000000001 / 10000000000, 7, LVALUE⟩] := by
    simp only [cut, c4Track, hb]
    norm_num [h1]
  have hb2 : bisect_left [(⟨10000000001 / 10000000000, 7, LVALUE⟩ : Joint ℚ)]
      (fun j => j.timestamp) 1 = 0 := by
    rw [bisect_left, if_neg (by norm_num)]
  have hc2 : cut [(⟨10000000001 / 10000000000, 7, LVALUE⟩ : Joint ℚ)] 1 9 none =
      [⟨10000000001 / 10000000000, 9, LVALUE⟩] := by
    simp only [cut, hb2]
    norm_num [h1]
  rw [hc1, hc2]
  exact ⟨by norm_num, by norm_num⟩

/-- Claim C4 (corrected).  On a sorted track: the second of two cuts
at the same time `t` does not change the number of joints; after both
cuts some joint within `isclose` tolerance of `t` holds the second
value `v2` (and the second easing); that joint sits exactly at `t`
when the original track had no joint within tolerance of `t` (but
keeps its own timestamp otherwise — see the counterexample); and in
general, whenever `equal b t` holds and a joint exists at `b`, a cut
at `t` merges into an existing joint instead of adding one. -/
theorem c4_idempotent_cut {V : Type} (js : LivingBamboo V) (hs : SortedJoints js)
    (t : ℚ) (v1 v2 : V) (e1 e2 : Option (ℚ → ℚ)) :
    (cut (cut js t v1 e1) t v2 e2).length = (cut js t v1 e1).length ∧
    (∃ j ∈ cut (cut js t v1 e1) t v2 e2,
      equal j.timestamp t ∧ j.value = v2 ∧ j.easing = e2.getD LVALUE) ∧
    ((∀ j ∈ js, ¬equal j.timestamp t) →
      (⟨t, v2, e2.getD LVALUE⟩ : Joint V) ∈ cut (cut js t v1 e1) t v2 e2) ∧
    (∀ b : ℚ, equal b t → (∃ j ∈ js, j.timestamp = b) →
      (cut js t v2 e2).length = js.length) := by
  have hs1 : SortedJoints (cut js t v1 e1) := cut_sorted hs t v1 e1
  have hclose1 : ∃ j ∈ cut js t v1 e1, equal j.timestamp t := by
    obtain ⟨j, hj, hjt, _, _⟩ := cut_has_close js hs t v1 e1
    exact ⟨j, hj, hjt⟩
  refine ⟨?_, ?_, ?_, ?_⟩
  · obtain ⟨k, hk, _, heq⟩ := cut_overwrites_of_close hs1 t v2 e2 hclose1
    rw [heq, List.length_set]
  · obtain ⟨j, hj, hjt, hv, he⟩ := cut_has_close (cut js t v1 e1) hs1 t v2 e2
    exact ⟨j, hj, hjt, hv, he⟩
  · intro hno
    have hc1 : cut js t v1 e1 =
        insertAt js (bisect_left js (fun j => j.timestamp) t) ⟨t, v1, e1.getD LVALUE⟩ :=
      cut_insert_of_no_close js t v1 e1 hno
    obtain ⟨k, hk, hkc, heq⟩ := cut_overwrites_of_close hs1 t v2 e2 hclose1
    set x := (cut js t v1 e1).get ⟨k, hk⟩ with hx
    have hmem : x ∈ cut js t v1 e1 := List.get_mem _ _ _
    rw [hc1] at hmem
    have hts : x.timestamp = t := by
      rcases mem_of_mem_insertAt hmem with hx2 | hx2
      · rw [hx2]
      · exact absurd hkc (hno _ hx2)
    rw [heq, hts]
    have hk2 : k < ((cut js t v1 e1).set k ⟨t, v2, e2.getD LVALUE⟩).length := by
      rw [List.length_set]
      exact hk
    have hself : ((cut js t v1 e1).set k ⟨t, v2, e2.getD LVALUE⟩)[k] =
        ⟨t, v2, e2.getD LVALUE⟩ :=
      List.getElem_set_self hk2
    have hmem2 := List.getElem_mem hk2
    rwa [hself] at hmem2
  · intro b hbt hex
    obtain ⟨j, hj, hjb⟩ := hex
    have hclose : ∃ j ∈ js, equal j.timestamp t := ⟨j, hj, by rw [hjb]; exact hbt⟩
    obtain ⟨k, hk, _, heq⟩ := cut_overwrites_of_close hs t v2 e2 hclose
    rw [heq, List.length_set]

/-- Witness for claim C4 on the concrete two-joint linear track, at
`t = 5`. -/
theorem c4_idempotent_cut_witness :
    (cut (cut c2Track 5 1 none) 5 2 none).length = (cut c2Track 5 1 none).length ∧
    (∃ j ∈ cut (cut c2Track 5 1 none) 5 2 none,
      equal j.timestamp 5 ∧ j.value = 2 ∧ j.easing = (none : Option (ℚ → ℚ)).getD LVALUE) ∧
    ((∀ j ∈ c2Track, ¬equal j.timestamp 5) →
      (⟨5, 2, (none : Option (ℚ → ℚ)).getD LVALUE⟩ : Joint ℚ) ∈
        cut (cut c2Track 5 1 none) 5 2 none) ∧
    (∀ b : ℚ, equal b 5 → (∃ j ∈ c2Track, j.timestamp = b) →
      (cut c2Track 5 2 none).length = c2Track.length) :=
  c4_idempotent_cut c2Track (by decide) 5 1 2 none none

/-! ### Evaluation of `LivingBamboo` tracks -/

/-- Clamping below: at or before the first joint, evaluation returns
the first value. -/
theorem living_clamp_low {V : Type} [AddCommGroup V] [Module ℚ V]
    (j0 : Joint V) (rest : List (Joint V)) (τ : ℚ) (h : τ ≤ j0.timestamp) :
    living_matmul (j0 :: rest) τ = some j0.value := by
  have hb : bisect_left (j0 :: rest) (fun j => j.timestamp) τ = 0 := by
    rw [bisect_left, if_neg (not_lt.2 h)]
  simp only [living_matmul, hb, List.getElem?_cons_zero]
  simp

/-- Clamping above: at or after the last joint of a sorted track,
evaluation returns the last value. -/
theorem living_clamp_high {V : Type} [AddCommGroup V] [Module ℚ V]
    (js : LivingBamboo V) (hs : SortedJoints js) (jl : Joint V)
    (hjl : js.getLast? = some jl) (τ : ℚ) (h : jl.timestamp ≤ τ) :
    living_matmul js τ = some jl.value := by
  have hne : js ≠ [] := by
    intro h0
    subst h0
    simp at hjl
  have hlp : js.length - 1 < js.length := Nat.sub_lt (List.length_pos.2 hne) Nat.one_pos
  have hjl_get : js.get ⟨js.length - 1, hlp⟩ = jl := by
    rw [List.getLast?_eq_getElem?, List.getElem?_eq_getElem hlp] at hjl
    simpa using Option.some.inj hjl
  simp only [List.get_eq_getElem] at hjl_get
  rcases eq_or_lt_of_le h with heq | hlt
  · have hdecomp : js.dropLast ++ [jl] = js := by
      have hgl : js.getLast hne = jl := by
        rw [List.getLast?_eq_getLast js hne] at hjl
        exact Option.some.inj hjl
      rw [← hgl]
      exact List.dropLast_append_getLast hne
    have hb : bisect_left js (fun j => j.timestamp) τ = js.length - 1 := by
      have hA : ∀ a ∈ js.dropLast, a.timestamp < τ := by
        intro a ha
        obtain ⟨i, hi, rfl⟩ := List.getElem_of_mem ha
        have hi2 : i < js.length - 1 := by
          simpa [List.length_dropLast] using hi
        have hi3 : i < js.length := by omega
        have hlt2 : (js.get ⟨i, hi3⟩).timestamp < (js.get ⟨js.length - 1, hlp⟩).timestamp :=
          sorted_ts_lt hs hi2 hlp
        simp only [List.get_eq_getElem] at hlt2
        rw [hjl_get] at hlt2
        rw [List.getElem_dropLast]
        simpa [heq] using hlt2
      have hB : ∀ b ∈ ([jl] : List (Joint V)).head?, ¬b.timestamp < τ := by
        intro b hb2
        simp only [List.head?] at hb2
        cases hb2
        exact not_lt.2 (le_of_eq heq.symm)
      have := bl_append js.dropLast [jl] (fun j => j.timestamp) τ hA hB
      rw [hdecomp] at this
      rw [this, List.length_dropLast]
    simp only [living_matmul, hb, List.getElem?_eq_getElem hlp]
    simp only [hjl_get]
    rw [if_pos (Or.inl heq)]
  · have hall : ∀ a ∈ js, a.timestamp < τ := by
      intro a ha
      obtain ⟨i, hi, rfl⟩ := List.getElem_of_mem ha
      have hle : (js.get ⟨i, hi⟩).timestamp ≤ (js.get ⟨js.length - 1, hlp⟩).timestamp :=
        sorted_ts_le hs (by omega) hlp
      simp only [List.get_eq_getElem] at hle
      rw [hjl_get] at hle
      simpa using lt_of_le_of_lt hle hlt
    have hb : bisect_left js (fun j => j.timestamp) τ = js.length := by
      have := bl_append js [] (fun j => j.timestamp) τ hall (by simp)
      simpa using this
    simp only [living_matmul, hb, List.getElem?_eq_none (le_refl js.length),
      List.getElem?_eq_getElem hlp]
    simp only [hjl_get]
    rfl

/-- Interior evaluation: strictly between two adjacent joints of a
sorted track, evaluation interpolates with the left joint's easing. -/
theorem living_interior {V : Type} [AddCommGroup V] [Module ℚ V]
    (pre : List (Joint V)) (ji jk : Joint V) (post : List (Joint V)) (τ : ℚ)
    (hs : SortedJoints (pre ++ ji :: jk :: post))
    (h1 : ji.timestamp < τ) (h2 : τ < jk.timestamp) :
    living_matmul (pre ++ ji :: jk :: post) τ =
      some (ji.value +
        (ji.easing ((τ - ji.timestamp) / (jk.timestamp - ji.timestamp))) •
          (jk.value - ji.value)) := by
  have hpre : ∀ a ∈ pre, a.timestamp < τ := by
    intro a ha
    have hcross := (List.pairwise_append.1 hs).2.2 a ha ji (List.mem_cons_self _ _)
    exact hcross.trans h1
  have hb : bisect_left (pre ++ ji :: jk :: post) (fun j => j.timestamp) τ =
      pre.length + 1 := by
    have hA : ∀ a ∈ pre ++ [ji], a.timestamp < τ := by
      intro a ha
      rcases List.mem_append.1 ha with ha | ha
      · exact hpre a ha
      · rcases List.mem_cons.1 ha with rfl | ha
        · exact h1
        · simp at ha
    have hB : ∀ b ∈ (jk :: post).head?, ¬b.timestamp < τ := by
      intro b hb2
      simp only [List.head?] at hb2
      cases hb2
      exact not_lt.2 (le_of_lt h2)
    have hassoc : (pre ++ [ji]) ++ jk :: post = pre ++ ji :: jk :: post := by
      simp
    have := bl_append (pre ++ [ji]) (jk :: post) (fun j => j.timestamp) τ hA hB
    rw [hassoc] at this
    rw [this]
    simp
  have hget_jk : (pre ++ ji :: jk :: post)[pre.length + 1]? = some jk := by
    rw [List.getElem?_append_right (by omega)]
    simp
  have hget_ji : (pre ++ ji :: jk :: post)[pre.length + 1 - 1]? = some ji := by
    rw [List.getElem?_append_right (by omega)]
    simp
  simp only [living_matmul, hb, hget_jk]
  rw [if_neg (by
    push_neg
    exact ⟨ne_of_gt h2, Nat.succ_ne_zero _⟩)]
  simp only [hget_ji]
  rw [if_neg (by
    intro hsame
    rw [hsame] at h2
    exact absurd (h1.trans h2) (lt_irrefl _))]

/-- Claim C3 (confirmed).  Evaluation of a non-empty sorted
`LivingBamboo` track at time `τ`: at or before the first joint it
returns the first value; at or after the last joint it returns the
last value; strictly between two adjacent joints `(tᵢ, tᵢ₊₁)` it
returns `vᵢ + easingᵢ((τ−tᵢ)/(tᵢ₊₁−tᵢ)) · (vᵢ₊₁−vᵢ)`. -/
theorem c3_living_eval {V : Type} [AddCommGroup V] [Module ℚ V]
    (js : LivingBamboo V) (τ : ℚ) (hs : SortedJoints js) :
    (∀ j0 rest, js = j0 :: rest → τ ≤ j0.timestamp →
      living_matmul js τ = some j0.value) ∧
    (∀ jl, js.getLast? = some jl → jl.timestamp ≤ τ →
      living_matmul js τ = some jl.value) ∧
    (∀ pre ji jk post, js = pre ++ ji :: jk :: post →
      ji.timestamp < τ → τ < jk.timestamp →
      living_matmul js τ = some (ji.value +
        (ji.easing ((τ - ji.timestamp) / (jk.timestamp - ji.timestamp))) •
          (jk.value - ji.value))) := by
  refine ⟨?_, ?_, ?_⟩
  · intro j0 rest hjs hτ
    subst hjs
    exact living_clamp_low j0 rest τ hτ
  · intro jl hjl hτ
    exact living_clamp_high js hs jl hjl τ hτ
  · intro pre ji jk post hjs h1 h2
    subst hjs
    exact living_interior pre ji jk post τ hs h1 h2

/-- Witness for claim C3 on the concrete two-joint linear track at
`τ = 5`. -/
theorem c3_living_eval_witness :
    (∀ j0 rest, c2Track = j0 :: rest → (5 : ℚ) ≤ j0.timestamp →
      living_matmul c2Track 5 = some j0.value) ∧
    (∀ jl, c2Track.getLast? = some jl → jl.timestamp ≤ 5 →
      living_matmul c2Track 5 = some jl.value) ∧
    (∀ pre ji jk post, c2Track = pre ++ ji :: jk :: post →
      ji.timestamp < 5 → 5 < jk.timestamp →
      living_matmul c2Track 5 = some (ji.value +
        (ji.easing ((5 - ji.timestamp) / (jk.timestamp - ji.timestamp))) •
          (jk.value - ji.value))) :=
  c3_living_eval c2Track 5 (by decide)

/-! ### Totality of track evaluation -/

/-- `LivingBamboo` evaluation is total on a non-empty sorted track. -/
theorem living_total {V : Type} [AddCommGroup V] [Module ℚ V]
    (js : LivingBamboo V) (hs : SortedJoints js) (hne : js ≠ []) (τ : ℚ) :
    ∃ v, living_matmul js τ = some v := by
  rw [← Option.isSome_iff_exists]
  rcases Nat.lt_or_ge (bisect_left js (fun j => j.timestamp) τ) js.length with hlt | hge
  · by_cases hcond : (js.get ⟨bisect_left js (fun j => j.timestamp) τ, hlt⟩).timestamp = τ ∨
        bisect_left js (fun j => j.timestamp) τ = 0
    · simp only [living_matmul, List.getElem?_eq_getElem hlt]
      simp only [List.get_eq_getElem] at hcond
      rw [if_pos hcond]
      rfl
    · push_neg at hcond
      have h0 : bisect_left js (fun j => j.timestamp) τ ≠ 0 := hcond.2
      have hprev : bisect_left js (fun j => j.timestamp) τ - 1 < js.length := by omega
      have hdistinct : (js.get ⟨bisect_left js (fun j => j.timestamp) τ, hlt⟩).timestamp ≠
          (js.get ⟨bisect_left js (fun j => j.timestamp) τ - 1, hprev⟩).timestamp := by
        have := sorted_ts_lt hs (show bisect_left js (fun j => j.timestamp) τ - 1 <
          bisect_left js (fun j => j.timestamp) τ by omega) hlt
        exact (ne_of_gt this)
      simp only [living_matmul, List.getElem?_eq_getElem hlt,
        List.getElem?_eq_getElem hprev]
      simp only [List.get_eq_getElem] at hcond hdistinct
      rw [if_neg (by push_neg; exact ⟨hcond.1, hcond.2⟩)]
      rw [if_neg hdistinct]
      rfl
  · have hb : bisect_left js (fun j => j.timestamp) τ = js.length :=
      le_antisymm (bl_le_length _ _ _) hge
    have hlp : js.length - 1 < js.length := Nat.sub_lt (List.length_pos.2 hne) Nat.one_pos
    simp only [living_matmul, hb, List.getElem?_eq_none (le_refl js.length),
      List.getElem?_eq_getElem hlp]
    rfl

/-- `BrokenBamboo` interpolation is total on a non-empty list of
non-degenerate segments. -/
theorem broken_interp_total {V : Type} [AddCommGroup V] [Module ℚ V]
    (segs : BrokenBamboo V) (hne : segs ≠ [])
    (hwf : ∀ s ∈ segs, s.start ≠ s.stop) (right : ℕ) (hr : right ≤ segs.length)
    (τ : ℚ) : ∃ v, broken_interp segs right τ = some v := by
  rw [← Option.isSome_iff_exists]
  have hget : ∃ seg, pyPrev segs right = some seg ∧ seg ∈ segs := by
    rw [pyPrev]
    by_cases h0 : right = 0
    · rw [if_pos h0]
      have hsome : (segs.getLast?).isSome := List.getLast?_isSome.2 hne
      obtain ⟨x, hx⟩ := Option.isSome_iff_exists.1 hsome
      have hxm : x ∈ segs.getLast? := by
        rw [Option.mem_def, hx]
      exact ⟨x, hx, List.mem_of_mem_getLast? hxm⟩
    · rw [if_neg h0]
      have hlt : right - 1 < segs.length := by
        have hpos : 0 < segs.length := List.length_pos.2 hne
        omega
      exact ⟨_, List.getElem?_eq_getElem hlt, List.getElem_mem hlt⟩
  obtain ⟨seg, hseg, hmem⟩ := hget
  simp only [broken_interp, hseg]
  rw [if_neg (Ne.symm (hwf seg hmem))]
  rfl


/-- `BrokenBamboo` evaluation is total on a non-empty list of
non-degenerate segments. -/
theorem broken_total {V : Type} [AddCommGroup V] [Module ℚ V]
    (segs : BrokenBamboo V) (hne : segs ≠ [])
    (hwf : ∀ s ∈ segs, s.start ≠ s.stop) (τ : ℚ) :
    ∃ v, broken_matmul segs τ = some v := by
  rw [← Option.isSome_iff_exists]
  rcases Nat.lt_or_ge (bisect_left segs (fun s => s.start) τ) segs.length with hlt | hge
  · simp only [broken_matmul, List.getElem?_eq_getElem hlt]
    by_cases heq : equal (segs.get ⟨bisect_left segs (fun s => s.start) τ, hlt⟩).start τ
    · rw [if_pos (by simpa using heq)]
      rfl
    · rw [if_neg (by simpa using heq)]
      obtain ⟨v, hv⟩ := broken_interp_total segs hne hwf _ (le_of_lt hlt) τ
      rw [hv]
      rfl
  · have hb : bisect_left segs (fun s => s.start) τ = segs.length :=
      le_antisymm (bl_le_length _ _ _) hge
    simp only [broken_matmul, hb, List.getElem?_eq_none (le_refl segs.length)]
    obtain ⟨v, hv⟩ := broken_interp_total segs hne hwf segs.length (le_refl _) τ
    rw [hv]
    rfl

/-- Claim C5, counterexample.  `BrokenBamboo` does NOT clamp: on the
single segment from `(0, 10)` to `(1, 20)`, evaluation at `3` (after
the last segment's end) extrapolates linearly to `40` instead of
returning the extreme value `20`, and evaluation at `-1` (before the
first segment's start) resolves `segments[right - 1]` through Python's
negative index to the LAST segment and extrapolates to `0` instead of
returning `10`. -/
theorem c5_broken_extrapolates :
    broken_matmul c5Segs 3 = some 40 ∧ (40 : ℚ) ≠ 20 ∧
    broken_matmul c5Segs (-1) = some 0 ∧ (0 : ℚ) ≠ 10 := by
  have hne1 : ¬equal (0 : ℚ) (-1) := by
    unfold equal
    rw [show (0 : ℚ) - (-1) = 1 by norm_num, abs_one, abs_zero,
      show |(-1 : ℚ)| = 1 by rw [abs_neg, abs_one],
      max_eq_right zero_le_one, relTol]
    norm_num
  have hb3 : bisect_left [(⟨0, 1, 10, 20⟩ : Segment ℚ)] (fun s => s.start) 3 = 1 := by
    rw [bisect_left, if_pos (by norm_num), bisect_left]
  have hb1 : bisect_left [(⟨0, 1, 10, 20⟩ : Segment ℚ)] (fun s => s.start) (-1) = 0 := by
    rw [bisect_left, if_neg (by norm_num)]
  refine ⟨?_, by norm_num, ?_, by norm_num⟩
  · simp only [broken_matmul, c5Segs, hb3]
    norm_num [broken_interp, pyPrev, smul_eq_mul]
  · simp only [broken_matmul, c5Segs, hb1]
    norm_num [broken_interp, pyPrev, smul_eq_mul, hne1]

/-- Claim C5 (corrected).  On well-formed tracks, `LivingBamboo`
evaluation is total and clamps at both extremes; `BrokenBamboo`
evaluation is total on a non-empty list of non-degenerate segments but
does not clamp (see the counterexample: queries outside the extremes
extrapolate linearly). -/
theorem c5_totality_and_clamping {V : Type} [AddCommGroup V] [Module ℚ V]
    (js : LivingBamboo V) (segs : BrokenBamboo V) (τ : ℚ)
    (hs : SortedJoints js) (hjs : js ≠ [])
    (hsegs : segs ≠ []) (hwf : ∀ s ∈ segs, s.start ≠ s.stop) :
    (∃ v, living_matmul js τ = some v) ∧
    (∀ j0 rest, js = j0 :: rest → τ ≤ j0.timestamp →
      living_matmul js τ = some j0.value) ∧
    (∀ jl, js.getLast? = some jl → jl.timestamp ≤ τ →
      living_matmul js τ = some jl.value) ∧
    (∃ v, broken_matmul segs τ = some v) :=
  ⟨living_total js hs hjs τ,
   fun j0 rest hjs2 hτ => by
     subst hjs2
     exact living_clamp_low j0 rest τ hτ,
   fun jl hjl hτ => living_clamp_high js hs jl hjl τ hτ,
   broken_total segs hsegs hwf τ⟩

/-- Witness for claim C5 on the concrete tracks at `τ = 7`. -/
theorem c5_totality_and_clamping_witness :
    (∃ v, living_matmul c2Track 7 = some v) ∧
    (∀ j0 rest, c2Track = j0 :: rest → (7 : ℚ) ≤ j0.timestamp →
      living_matmul c2Track 7 = some j0.value) ∧
    (∀ jl, c2Track.getLast? = some jl → jl.timestamp ≤ 7 →
      living_matmul c2Track 7 = some jl.value) ∧
    (∃ v, broken_matmul c5Segs 7 = some v) :=
  c5_totality_and_clamping c2Track c5Segs 7 (by decide)
    (by unfold c2Track; exact List.cons_ne_nil _ _)
    (by unfold c5Segs; exact List.cons_ne_nil _ _) (by decide)


/-! ### Branch characterizations of `LivingBamboo.embed` -/

/-- Inserting at the boundary of an append splits it. -/
theorem insertAt_eq_append {α : Type} (A B : List α) (x : α) :
    insertAt (A ++ B) A.length x = A ++ x :: B := by
  rw [insertAt, List.take_left, List.drop_left]

/-- Setting the element just after a prefix. -/
theorem set_append_cons {α : Type} (A : List α) (b : α) (B : List α) (c : α) :
    (A ++ b :: B).set A.length c = A ++ c :: B := by
  induction A with
  | nil => rfl
  | cons a A ih => simp [List.set, ih]

/-- Embed past the end of a non-empty track: both joints are appended;
the start joint inherits the last value (which is also the track's
value at `start` there), the end joint the last easing. -/
theorem embed_tail {V : Type} (js : LivingBamboo V) (s e : ℚ) (ev : V) (es : ℚ → ℚ)
    (last : Joint V) (hlast : js.getLast? = some last)
    (hall : ∀ j ∈ js, j.timestamp < s) :
    embed js s e ev es = some (js ++ [⟨s, last.value, es⟩, ⟨e, ev, last.easing⟩]) := by
  have hb : bisect_left js (fun j => j.timestamp) s = js.length := by
    have hbl := bl_append js [] (fun j => j.timestamp) s hall (by simp)
    simpa using hbl
  simp only [embed, hb, List.getElem?_eq_none (le_refl js.length), hlast]

/-- Embed strictly inside a track, the end not coinciding with the
next joint: the start joint takes the PREVIOUS joint's raw value (not
the interpolated track value), the end joint the previous easing. -/
theorem embed_mid {V : Type} (pre : List (Joint V)) (jp jn : Joint V)
    (post : List (Joint V)) (s e : ℚ) (ev : V) (es : ℚ → ℚ)
    (hpre : ∀ j ∈ pre ++ [jp], j.timestamp < s) (hjn : ¬jn.timestamp < s)
    (hns : ¬equal jn.timestamp s) (hne : ¬equal jn.timestamp e) :
    embed (pre ++ jp :: jn :: post) s e ev es =
      some (pre ++ jp :: ⟨s, jp.value, es⟩ :: ⟨e, ev, jp.easing⟩ :: jn :: post) := by
  have hassoc : pre ++ jp :: jn :: post = (pre ++ [jp]) ++ jn :: post := by simp
  have hb : bisect_left (pre ++ jp :: jn :: post) (fun j => j.timestamp) s =
      pre.length + 1 := by
    have hbl := bl_append (pre ++ [jp]) (jn :: post) (fun j => j.timestamp) s hpre
      (by
        intro b hb2
        simp only [List.head?] at hb2
        cases hb2
        exact hjn)
    rw [← hassoc] at hbl
    simpa using hbl
  have hget_jn : (pre ++ jp :: jn :: post)[pre.length + 1]? = some jn := by
    rw [List.getElem?_append_right (by omega)]
    simp
  have hj1 : insertAt (pre ++ jp :: jn :: post) (pre.length + 1)
      (⟨e, ev, jp.easing⟩ : Joint V) = (pre ++ [jp]) ++ ⟨e, ev, jp.easing⟩ :: jn :: post := by
    rw [hassoc, show pre.length + 1 = (pre ++ [jp]).length by simp]
    exact insertAt_eq_append _ _ _
  have hprev0 : pyPrev (pre ++ jp :: jn :: post) (pre.length + 1) = some jp := by
    rw [pyPrev, if_neg (Nat.succ_ne_zero _)]
    rw [show pre.length + 1 - 1 = pre.length by omega, hassoc]
    rw [List.getElem?_append, if_pos (by simp)]
    rw [List.getElem?_append, if_neg (lt_irrefl _)]
    simp
  have hprev1 : pyPrev ((pre ++ [jp]) ++ ⟨e, ev, jp.easing⟩ :: jn :: post)
      (pre.length + 1) = some jp := by
    rw [pyPrev, if_neg (Nat.succ_ne_zero _)]
    rw [show pre.length + 1 - 1 = pre.length by omega]
    rw [List.getElem?_append, if_pos (by simp)]
    rw [List.getElem?_append, if_neg (lt_irrefl _)]
    simp
  have hj2 : insertAt ((pre ++ [jp]) ++ ⟨e, ev, jp.easing⟩ :: jn :: post)
      (pre.length + 1) (⟨s, jp.value, es⟩ : Joint V) =
      (pre ++ [jp]) ++ ⟨s, jp.value, es⟩ :: ⟨e, ev, jp.easing⟩ :: jn :: post := by
    rw [show pre.length + 1 = (pre ++ [jp]).length by simp]
    exact insertAt_eq_append _ _ _
  simp only [embed, hb, hget_jn]
  rw [if_neg hns, if_neg hne]
  simp only [hprev0, hj1, hprev1, hj2]
  simp


/-- Embed strictly inside a track when the end coincides with the next
joint: that joint's value is overwritten with the end value (keeping
its timestamp and easing) and only the start joint is inserted, again
with the previous joint's raw value. -/
theorem embed_mid_overwrite_end {V : Type} (pre : List (Joint V)) (jp jn : Joint V)
    (post : List (Joint V)) (s e : ℚ) (ev : V) (es : ℚ → ℚ)
    (hpre : ∀ j ∈ pre ++ [jp], j.timestamp < s) (hjn : ¬jn.timestamp < s)
    (hns : ¬equal jn.timestamp s) (hne : equal jn.timestamp e) :
    embed (pre ++ jp :: jn :: post) s e ev es =
      some (pre ++ jp :: ⟨s, jp.value, es⟩ :: ⟨jn.timestamp, ev, jn.easing⟩ :: post) := by
  have hassoc : pre ++ jp :: jn :: post = (pre ++ [jp]) ++ jn :: post := by simp
  have hb : bisect_left (pre ++ jp :: jn :: post) (fun j => j.timestamp) s =
      pre.length + 1 := by
    have hbl := bl_append (pre ++ [jp]) (jn :: post) (fun j => j.timestamp) s hpre
      (by
        intro b hb2
        simp only [List.head?] at hb2
        cases hb2
        exact hjn)
    rw [← hassoc] at hbl
    simpa using hbl
  have hget_jn : (pre ++ jp :: jn :: post)[pre.length + 1]? = some jn := by
    rw [List.getElem?_append_right (by omega)]
    simp
  have hset : (pre ++ jp :: jn :: post).set (pre.length + 1)
      (⟨jn.timestamp, ev, jn.easing⟩ : Joint V) =
      (pre ++ [jp]) ++ ⟨jn.timestamp, ev, jn.easing⟩ :: post := by
    rw [hassoc, show pre.length + 1 = (pre ++ [jp]).length by simp]
    exact set_append_cons _ _ _ _
  have hprev : pyPrev ((pre ++ [jp]) ++ ⟨jn.timestamp, ev, jn.easing⟩ :: post)
      (pre.length + 1) = some jp := by
    rw [pyPrev, if_neg (Nat.succ_ne_zero _)]
    rw [show pre.length + 1 - 1 = pre.length by omega]
    rw [List.getElem?_append, if_pos (by simp)]
    rw [List.getElem?_append, if_neg (lt_irrefl _)]
    simp
  have hins : insertAt ((pre ++ [jp]) ++ ⟨jn.timestamp, ev, jn.easing⟩ :: post)
      (pre.length + 1) (⟨s, jp.value, es⟩ : Joint V) =
      (pre ++ [jp]) ++ ⟨s, jp.value, es⟩ :: ⟨jn.timestamp, ev, jn.easing⟩ :: post := by
    rw [show pre.length + 1 = (pre ++ [jp]).length by simp]
    exact insertAt_eq_append _ _ _
  simp only [embed, hb, hget_jn]
  rw [if_neg hns, if_pos hne]
  simp only [hset, hprev, hins]
  simp

/-- Embed whose start coincides (within tolerance) with an existing
joint, the end NOT coinciding with the next joint: only the easing of
that joint is overwritten (value preserved), and the end joint is
inserted after it carrying the joint's previous easing. -/
theorem embed_at_start {V : Type} (pre : List (Joint V)) (jc : Joint V)
    (rest : List (Joint V)) (s e : ℚ) (ev : V) (es : ℚ → ℚ)
    (hpre : ∀ j ∈ pre, j.timestamp < s) (hjc : ¬jc.timestamp < s)
    (heq : equal jc.timestamp s)
    (hrest : rest = [] ∨ ∃ jn rest2, rest = jn :: rest2 ∧ ¬equal jn.timestamp e) :
    embed (pre ++ jc :: rest) s e ev es =
      some (pre ++ ⟨jc.timestamp, jc.value, es⟩ :: ⟨e, ev, jc.easing⟩ :: rest) := by
  have hb : bisect_left (pre ++ jc :: rest) (fun j => j.timestamp) s = pre.length :=
    bl_append pre (jc :: rest) (fun j => j.timestamp) s hpre
      (by
        intro b hb2
        simp only [List.head?] at hb2
        cases hb2
        exact hjc)
  have hget_jc : (pre ++ jc :: rest)[pre.length]? = some jc := by
    rw [List.getElem?_append, if_neg (lt_irrefl _)]
    simp
  have hset : (pre ++ jc :: rest).set pre.length
      (⟨jc.timestamp, jc.value, es⟩ : Joint V) =
      pre ++ ⟨jc.timestamp, jc.value, es⟩ :: rest :=
    set_append_cons _ _ _ _
  simp only [embed, hb, hget_jc]
  rw [if_pos heq]
  simp only [hset]
  rcases hrest with rfl | ⟨jn, rest2, rfl, hnee⟩
  · rw [if_pos (by simp)]
    have hins : insertAt (pre ++ [(⟨jc.timestamp, jc.value, es⟩ : Joint V)])
        (pre.length + 1) (⟨e, ev, jc.easing⟩ : Joint V) =
        pre ++ ⟨jc.timestamp, jc.value, es⟩ :: ⟨e, ev, jc.easing⟩ :: [] := by
      have h2 : insertAt ((pre ++ [(⟨jc.timestamp, jc.value, es⟩ : Joint V)]) ++ [])
          (pre ++ [(⟨jc.timestamp, jc.value, es⟩ : Joint V)]).length
          (⟨e, ev, jc.easing⟩ : Joint V) =
          (pre ++ [(⟨jc.timestamp, jc.value, es⟩ : Joint V)]) ++ [⟨e, ev, jc.easing⟩] :=
        insertAt_eq_append _ _ _
      simpa using h2
    simpa using hins
  · rw [if_neg (by
      simp only [List.length_append, List.length_cons, ge_iff_le]
      omega)]
    have hget_jn : (pre ++ ⟨jc.timestamp, jc.value, es⟩ :: jn :: rest2)[pre.length + 1]? =
        some jn := by
      rw [List.getElem?_append_right (by omega)]
      simp
    simp only [hget_jn]
    rw [if_neg hnee]
    have hins : insertAt (pre ++ ⟨jc.timestamp, jc.value, es⟩ :: jn :: rest2)
        (pre.length + 1) (⟨e, ev, jc.easing⟩ : Joint V) =
        pre ++ ⟨jc.timestamp, jc.value, es⟩ :: ⟨e, ev, jc.easing⟩ :: jn :: rest2 := by
      have hassoc2 : pre ++ (⟨jc.timestamp, jc.value, es⟩ : Joint V) :: jn :: rest2 =
          (pre ++ [(⟨jc.timestamp, jc.value, es⟩ : Joint V)]) ++ jn :: rest2 := by simp
      rw [hassoc2, show pre.length + 1 = (pre ++ [(⟨jc.timestamp, jc.value, es⟩ : Joint V)]).length by simp]
      have h2 := insertAt_eq_append (pre ++ [(⟨jc.timestamp, jc.value, es⟩ : Joint V)])
        (jn :: rest2) (⟨e, ev, jc.easing⟩ : Joint V)
      rw [h2]
      simp
    simp only [hins]

/-- Embed whose start coincides with an existing joint AND whose end
coincides with the next joint: only the easing of the start joint is
overwritten; the next joint is left completely unchanged (in
particular its value is NOT overwritten with the end value). -/
theorem embed_at_start_end_coincide {V : Type} (pre : List (Joint V)) (jc jn : Joint V)
    (rest2 : List (Joint V)) (s e : ℚ) (ev : V) (es : ℚ → ℚ)
    (hpre : ∀ j ∈ pre, j.timestamp < s) (hjc : ¬jc.timestamp < s)
    (heq : equal jc.timestamp s) (hnee : equal jn.timestamp e) :
    embed (pre ++ jc :: jn :: rest2) s e ev es =
      some (pre ++ ⟨jc.timestamp, jc.value, es⟩ :: jn :: rest2) := by
  have hb : bisect_left (pre ++ jc :: jn :: rest2) (fun j => j.timestamp) s = pre.length :=
    bl_append pre (jc :: jn :: rest2) (fun j => j.timestamp) s hpre
      (by
        intro b hb2
        simp only [List.head?] at hb2
        cases hb2
        exact hjc)
  have hget_jc : (pre ++ jc :: jn :: rest2)[pre.length]? = some jc := by
    rw [List.getElem?_append, if_neg (lt_irrefl _)]
    simp
  have hset : (pre ++ jc :: jn :: rest2).set pre.length
      (⟨jc.timestamp, jc.value, es⟩ : Joint V) =
      pre ++ ⟨jc.timestamp, jc.value, es⟩ :: jn :: rest2 :=
    set_append_cons _ _ _ _
  simp only [embed, hb, hget_jc]
  rw [if_pos heq]
  simp only [hset]
  rw [if_neg (by
    simp only [List.length_append, List.length_cons, ge_iff_le]
    omega)]
  have hget_jn : (pre ++ ⟨jc.timestamp, jc.value, es⟩ :: jn :: rest2)[pre.length + 1]? =
      some jn := by
    rw [List.getElem?_append_right (by omega)]
    simp
  simp only [hget_jn]
  rw [if_pos hnee]


/-- Claim C2 (corrected).  The exhaustive behaviour of `embed` on a
sorted track, stated through list decompositions.  Corrections versus
the claim: the inserted start joint takes the PREVIOUS joint's raw
value, which equals the track's value at `start` only when `start`
lies past the last joint (in general the track's value there is the
interpolated one); and when a joint already exists at `start`, the
next joint's value is NOT overwritten even when the end coincides with
it. -/
theorem c2_embed {V : Type} (s e : ℚ) (ev : V) (es : ℚ → ℚ) :
    (∀ (js : LivingBamboo V) (last : Joint V), js.getLast? = some last →
      (∀ j ∈ js, j.timestamp < s) →
      embed js s e ev es = some (js ++ [⟨s, last.value, es⟩, ⟨e, ev, last.easing⟩])) ∧
    (∀ (pre : List (Joint V)) (jp jn : Joint V) (post : List (Joint V)),
      (∀ j ∈ pre ++ [jp], j.timestamp < s) → ¬jn.timestamp < s →
      ¬equal jn.timestamp s → ¬equal jn.timestamp e →
      embed (pre ++ jp :: jn :: post) s e ev es =
        some (pre ++ jp :: ⟨s, jp.value, es⟩ :: ⟨e, ev, jp.easing⟩ :: jn :: post)) ∧
    (∀ (pre : List (Joint V)) (jp jn : Joint V) (post : List (Joint V)),
      (∀ j ∈ pre ++ [jp], j.timestamp < s) → ¬jn.timestamp < s →
      ¬equal jn.timestamp s → equal jn.timestamp e →
      embed (pre ++ jp :: jn :: post) s e ev es =
        some (pre ++ jp :: ⟨s, jp.value, es⟩ :: ⟨jn.timestamp, ev, jn.easing⟩ :: post)) ∧
    (∀ (pre : List (Joint V)) (jc : Joint V) (rest : List (Joint V)),
      (∀ j ∈ pre, j.timestamp < s) → ¬jc.timestamp < s → equal jc.timestamp s →
      (rest = [] ∨ ∃ jn rest2, rest = jn :: rest2 ∧ ¬equal jn.timestamp e) →
      embed (pre ++ jc :: rest) s e ev es =
        some (pre ++ ⟨jc.timestamp, jc.value, es⟩ :: ⟨e, ev, jc.easing⟩ :: rest)) ∧
    (∀ (pre : List (Joint V)) (jc jn : Joint V) (rest2 : List (Joint V)),
      (∀ j ∈ pre, j.timestamp < s) → ¬jc.timestamp < s → equal jc.timestamp s →
      equal jn.timestamp e →
      embed (pre ++ jc :: jn :: rest2) s e ev es =
        some (pre ++ ⟨jc.timestamp, jc.value, es⟩ :: jn :: rest2)) :=
  ⟨fun js last hlast hall => embed_tail js s e ev es last hlast hall,
   fun pre jp jn post h1 h2 h3 h4 => embed_mid pre jp jn post s e ev es h1 h2 h3 h4,
   fun pre jp jn post h1 h2 h3 h4 => embed_mid_overwrite_end pre jp jn post s e ev es h1 h2 h3 h4,
   fun pre jc rest h1 h2 h3 h4 => embed_at_start pre jc rest s e ev es h1 h2 h3 h4,
   fun pre jc jn rest2 h1 h2 h3 h4 =>
     embed_at_start_end_coincide pre jc jn rest2 s e ev es h1 h2 h3 h4⟩

/-- Claim C2, counterexample.  On the linear track with joints
`(0, 0)` and `(10, 10)`, the track evaluates to `5` at time `5`, but
`embed(5, 7, 99, LVALUE)` inserts the start joint with value `0` — the
previous joint's raw value — not the track's value `5` at the start
time. -/
theorem c2_embed_counterexample :
    (embed c2Track 5 7 99 LVALUE).map (List.map fun j => (j.timestamp, j.value)) =
      some [(0, 0), (5, 0), (7, 99), (10, 10)] ∧
    living_matmul c2Track 5 = some 5 ∧ (5 : ℚ) ≠ 0 := by
  refine ⟨?_, ?_, by norm_num⟩
  · have h1 : ¬equal (10 : ℚ) 5 :=
      not_equal_of_lt _ _ (by norm_num) (by norm_num) (by rw [relTol]; norm_num)
    have h2 : ¬equal (10 : ℚ) 7 :=
      not_equal_of_lt _ _ (by norm_num) (by norm_num) (by rw [relTol]; norm_num)
    have hb : bisect_left [(⟨0, 0, idEasing⟩ : Joint ℚ), ⟨10, 10, idEasing⟩]
        (fun j => j.timestamp) 5 = 1 := by
      rw [bisect_left, if_pos (by norm_num), bisect_left, if_neg (by norm_num)]
    simp only [embed, c2Track, hb]
    norm_num [h1, h2, pyPrev, insertAt, idEasing]
  · have hb : bisect_left [(⟨0, 0, idEasing⟩ : Joint ℚ), ⟨10, 10, idEasing⟩]
        (fun j => j.timestamp) 5 = 1 := by
      rw [bisect_left, if_pos (by norm_num), bisect_left, if_neg (by norm_num)]
    simp only [living_matmul, c2Track, hb]
    norm_num [idEasing]

/-- Witness for claim C2: the mid-track clause on the concrete linear
track. -/
theorem c2_embed_witness :
    embed c2Track 5 7 99 LVALUE =
      some [⟨0, 0, idEasing⟩, ⟨5, (0 : ℚ), LVALUE⟩, ⟨7, 99, idEasing⟩, ⟨10, 10, idEasing⟩] :=
  (c2_embed 5 7 99 LVALUE).2.1 [] ⟨0, 0, idEasing⟩ ⟨10, 10, idEasing⟩ []
    (by
      intro j hj
      simp only [List.nil_append, List.mem_singleton] at hj
      subst hj
      norm_num)
    (by norm_num)
    (not_equal_of_lt _ _ (by norm_num) (by norm_num) (by rw [relTol]; norm_num))
    (not_equal_of_lt _ _ (by norm_num) (by norm_num) (by rw [relTol]; norm_num))


/-! ### The off-screen remap -/

/-- Appending one point to a position sum. -/
theorem posSum_append_single (l : List Pos) (p : Pos) :
    posSum (l ++ [p]) = (posSum l).add p := by
  simp [posSum, List.foldl_append]

/-- One accumulation block tracks the in-range-hit list. -/
theorem accumHit_spec {sc : Pos × ℕ} (j : Option Pos) (ok : Pos → Prop)
    [DecidablePred ok] {hits : List Pos}
    (h1 : sc.1 = posSum hits) (h2 : sc.2 = hits.length) :
    (accumHit sc j ok).1 = posSum (hits ++ optHit j ok) ∧
    (accumHit sc j ok).2 = (hits ++ optHit j ok).length := by
  cases j with
  | none => simp [accumHit, optHit, h1, h2]
  | some pj =>
    by_cases hok : ok pj
    · constructor
      · simp [accumHit, optHit, hok, h1, posSum_append_single]
      · simp [accumHit, optHit, hok, h2]
    · simp [accumHit, optHit, hok, h1, h2]

/-- The accumulated sum and count are the sum and length of the
in-range hit list. -/
theorem remapAccum_eq (su : ScreenUtil) (p rotation : Pos) :
    remapAccum su p rotation =
      (posSum (remapHits su p rotation), (remapHits su p rotation).length) := by
  have h0a : ((⟨⟨0, 0⟩, 0⟩ : Pos × ℕ)).1 = posSum [] := rfl
  have h0b : ((⟨⟨0, 0⟩, 0⟩ : Pos × ℕ)).2 = ([] : List Pos).length := rfl
  have s1 := accumHit_spec (intersect (p, p.add (rotation.mul Pos.unitI))
      (⟨0, 0⟩, ⟨(su.width : ℚ), 0⟩))
    (fun j => 0 ≤ j.re ∧ j.re ≤ (su.width : ℚ)) h0a h0b
  have s2 := accumHit_spec (intersect (p, p.add (rotation.mul Pos.unitI))
      (⟨0, 0⟩, ⟨0, (su.height : ℚ)⟩))
    (fun j => 0 ≤ j.im ∧ j.im ≤ (su.height : ℚ)) s1.1 s1.2
  have s3 := accumHit_spec (intersect (p, p.add (rotation.mul Pos.unitI))
      (⟨(su.width : ℚ), 0⟩, ⟨(su.width : ℚ), (su.height : ℚ)⟩))
    (fun j => 0 ≤ j.im ∧ j.im ≤ (su.height : ℚ)) s2.1 s2.2
  have s4 := accumHit_spec (intersect (p, p.add (rotation.mul Pos.unitI))
      (⟨0, (su.height : ℚ)⟩, ⟨(su.width : ℚ), (su.height : ℚ)⟩))
    (fun j => 0 ≤ j.re ∧ j.re ≤ (su.width : ℚ)) s3.1 s3.2
  rw [remapAccum]
  refine Prod.ext ?_ ?_
  · rw [s4.1, remapHits]
    simp
  · rw [s4.2, remapHits]
    simp

/-- The intersection with the bottom edge line `y = 0` has imaginary
part exactly `0`. -/
theorem intersect_bottom_im (p q : Pos) (W : ℚ) (j : Pos)
    (h : intersect (p, q) (⟨0, 0⟩, ⟨W, 0⟩) = some j) : j.im = 0 := by
  rw [intersect] at h
  split at h
  · exact absurd h (by simp)
  · rw [Option.some.injEq] at h
    subst h
    show det ⟨det p q, det ⟨0, 0⟩ ⟨W, 0⟩⟩ _ / _ = 0
    have hz : det ⟨det p q, det (⟨0, 0⟩ : Pos) ⟨W, 0⟩⟩
        ⟨(p.sub q).im, ((⟨0, 0⟩ : Pos).sub ⟨W, 0⟩).im⟩ = 0 := by
      simp only [det, Pos.mul, Pos.conj, Pos.sub, Pos.unitI]
      ring
    rw [hz, zero_div]

/-- The intersection with the left edge line `x = 0` has real part
exactly `0`. -/
theorem intersect_left_re (p q : Pos) (H : ℚ) (j : Pos)
    (h : intersect (p, q) (⟨0, 0⟩, ⟨0, H⟩) = some j) : j.re = 0 := by
  rw [intersect] at h
  split at h
  · exact absurd h (by simp)
  · rw [Option.some.injEq] at h
    subst h
    show det ⟨det p q, det ⟨0, 0⟩ ⟨0, H⟩⟩ _ / _ = 0
    have hz : det ⟨det p q, det (⟨0, 0⟩ : Pos) ⟨0, H⟩⟩
        ⟨(p.sub q).re, ((⟨0, 0⟩ : Pos).sub ⟨0, H⟩).re⟩ = 0 := by
      simp only [det, Pos.mul, Pos.conj, Pos.sub, Pos.unitI]
      ring
    rw [hz, zero_div]

/-- The intersection with the right edge line `x = W` has real part
exactly `W`. -/
theorem intersect_right_re (p q : Pos) (W H : ℚ) (j : Pos)
    (h : intersect (p, q) (⟨W, 0⟩, ⟨W, H⟩) = some j) : j.re = W := by
  rw [intersect] at h
  split at h
  · exact absurd h (by simp)
  · next hdi =>
    rw [Option.some.injEq] at h
    subst h
    show det ⟨det p q, det ⟨W, 0⟩ ⟨W, H⟩⟩ _ / _ = W
    rw [div_eq_iff hdi]
    simp only [det, Pos.mul, Pos.conj, Pos.sub, Pos.unitI]
    ring

/-- The intersection with the top edge line `y = H` has imaginary part
exactly `H`. -/
theorem intersect_top_im (p q : Pos) (W H : ℚ) (j : Pos)
    (h : intersect (p, q) (⟨0, H⟩, ⟨W, H⟩) = some j) : j.im = H := by
  rw [intersect] at h
  split at h
  · exact absurd h (by simp)
  · next hdi =>
    rw [Option.some.injEq] at h
    subst h
    show det ⟨det p q, det ⟨0, H⟩ ⟨W, H⟩⟩ _ / _ = H
    rw [div_eq_iff hdi]
    simp only [det, Pos.mul, Pos.conj, Pos.sub, Pos.unitI]
    ring


/-- One accumulation block preserves the invariant
`0 <= s.re <= cnt*W` and `0 <= s.im <= cnt*H`, provided every accepted
hit lies in the `[0,W] x [0,H]` box. -/
theorem accumHit_inv {W H : ℚ} {sc : Pos × ℕ} {j : Option Pos} {ok : Pos → Prop}
    [DecidablePred ok]
    (hinv : 0 ≤ sc.1.re ∧ sc.1.re ≤ sc.2 * W ∧
      0 ≤ sc.1.im ∧ sc.1.im ≤ sc.2 * H)
    (hbox : ∀ pj, j = some pj → ok pj →
      0 ≤ pj.re ∧ pj.re ≤ W ∧ 0 ≤ pj.im ∧ pj.im ≤ H) :
    0 ≤ (accumHit sc j ok).1.re ∧
      (accumHit sc j ok).1.re ≤ (accumHit sc j ok).2 * W ∧
      0 ≤ (accumHit sc j ok).1.im ∧
      (accumHit sc j ok).1.im ≤ (accumHit sc j ok).2 * H := by
  cases j with
  | none => exact hinv
  | some pj =>
    by_cases hok : ok pj
    · obtain ⟨h1, h2, h3, h4⟩ := hinv
      obtain ⟨b1, b2, b3, b4⟩ := hbox pj rfl hok
      simp only [accumHit, if_pos hok, Pos.add]
      push_cast
      refine ⟨by linarith, by nlinarith, by linarith, by nlinarith⟩
    · simp only [accumHit, if_neg hok]
      exact hinv

/-- The invariant holds for the full four-edge accumulation of
`remap`. -/
theorem remapAccum_inv (su : ScreenUtil) (p rotation : Pos) :
    0 ≤ (remapAccum su p rotation).1.re ∧
      (remapAccum su p rotation).1.re ≤
        (remapAccum su p rotation).2 * (su.width : ℚ) ∧
      0 ≤ (remapAccum su p rotation).1.im ∧
      (remapAccum su p rotation).1.im ≤
        (remapAccum su p rotation).2 * (su.height : ℚ) := by
  have hW : (0 : ℚ) ≤ (su.width : ℚ) := Nat.cast_nonneg _
  have hH : (0 : ℚ) ≤ (su.height : ℚ) := Nat.cast_nonneg _
  rw [remapAccum]
  refine accumHit_inv (accumHit_inv (accumHit_inv (accumHit_inv ?_ ?_) ?_) ?_) ?_
  · norm_num
  · intro pj hj hok
    have h0 := intersect_bottom_im p (p.add (rotation.mul Pos.unitI))
      (su.width : ℚ) pj hj
    exact ⟨hok.1, hok.2, h0.ge, h0.le.trans hH⟩
  · intro pj hj hok
    have h0 := intersect_left_re p (p.add (rotation.mul Pos.unitI))
      (su.height : ℚ) pj hj
    exact ⟨h0.ge, h0.le.trans hW, hok.1, hok.2⟩
  · intro pj hj hok
    have h0 := intersect_right_re p (p.add (rotation.mul Pos.unitI))
      (su.width : ℚ) (su.height : ℚ) pj hj
    exact ⟨hW.trans h0.ge, h0.le, hok.1, hok.2⟩
  · intro pj hj hok
    have h0 := intersect_top_im p (p.add (rotation.mul Pos.unitI))
      (su.width : ℚ) (su.height : ℚ) pj hj
    exact ⟨hok.1, hok.2, hH.trans h0.ge, h0.le⟩

/-- C7: for every point and every direction, the remapped position lies
within `[0, W] x [0, H]` in exact arithmetic: visible points are
returned unchanged inside the box, the centre fallback is inside the
box, and the average of in-range edge hits is inside the box because
every accepted hit is. -/
theorem c7_remap_containment (su : ScreenUtil) (p rotation : Pos) :
    0 ≤ (su.remap p rotation).re ∧
      (su.remap p rotation).re ≤ (su.width : ℚ) ∧
      0 ≤ (su.remap p rotation).im ∧
      (su.remap p rotation).im ≤ (su.height : ℚ) := by
  have hW : (0 : ℚ) ≤ (su.width : ℚ) := Nat.cast_nonneg _
  have hH : (0 : ℚ) ≤ (su.height : ℚ) := Nat.cast_nonneg _
  rw [ScreenUtil.remap]
  by_cases hvis : su.visible p
  · rw [if_pos hvis]
    exact hvis
  · rw [if_neg hvis]
    have hinv := remapAccum_inv su p rotation
    by_cases hzero : (remapAccum su p rotation).1 = ⟨0, 0⟩
    · rw [if_pos hzero]
      refine ⟨?_, ?_, ?_, ?_⟩
      · show (0 : ℚ) ≤ (su.width : ℚ) / 2
        linarith
      · show (su.width : ℚ) / 2 ≤ (su.width : ℚ)
        linarith
      · show (0 : ℚ) ≤ (su.height : ℚ) / 2
        linarith
      · show (su.height : ℚ) / 2 ≤ (su.height : ℚ)
        linarith
    · rw [if_neg hzero]
      have hcnt : 0 < (remapAccum su p rotation).2 := by
        rcases Nat.eq_zero_or_pos (remapAccum su p rotation).2 with h0 | h0
        · exfalso
          apply hzero
          have hre : (remapAccum su p rotation).1.re = 0 := by
            have := hinv.2.1
            rw [h0] at this
            have h1 := hinv.1
            push_cast at this
            linarith
          have him : (remapAccum su p rotation).1.im = 0 := by
            have := hinv.2.2.2
            rw [h0] at this
            have h1 := hinv.2.2.1
            push_cast at this
            linarith
          rw [show (remapAccum su p rotation).1 =
            (⟨(remapAccum su p rotation).1.re,
              (remapAccum su p rotation).1.im⟩ : Pos) from rfl, hre, him]
        · exact h0
      have hcQ : (0 : ℚ) < ((remapAccum su p rotation).2 : ℚ) := by
        exact_mod_cast hcnt
      refine ⟨?_, ?_, ?_, ?_⟩
      · show (0 : ℚ) ≤ (remapAccum su p rotation).1.re /
          ((remapAccum su p rotation).2 : ℚ)
        exact div_nonneg hinv.1 hcQ.le
      · show (remapAccum su p rotation).1.re /
          ((remapAccum su p rotation).2 : ℚ) ≤ (su.width : ℚ)
        rw [div_le_iff₀ hcQ]
        nlinarith [hinv.2.1]
      · show (0 : ℚ) ≤ (remapAccum su p rotation).1.im /
          ((remapAccum su p rotation).2 : ℚ)
        exact div_nonneg hinv.2.2.1 hcQ.le
      · show (remapAccum su p rotation).1.im /
          ((remapAccum su p rotation).2 : ℚ) ≤ (su.height : ℚ)
        rw [div_le_iff₀ hcQ]
        nlinarith [hinv.2.2.2]


/-- C6 (amended): the remap policy.  Visible points are returned
unchanged.  Off-screen, the in-range edge hits are collected; the
centre is returned exactly when their SUM is zero (the code tests
`s == 0`, not `cnt == 0`), and otherwise the hit average is
returned. -/
theorem c6_remap_characterization (su : ScreenUtil) (p rotation : Pos) :
    (su.visible p → su.remap p rotation = p) ∧
    (¬ su.visible p → posSum (remapHits su p rotation) = ⟨0, 0⟩ →
      su.remap p rotation = ⟨(su.width : ℚ) / 2, (su.height : ℚ) / 2⟩) ∧
    (¬ su.visible p → posSum (remapHits su p rotation) ≠ ⟨0, 0⟩ →
      su.remap p rotation =
        (posSum (remapHits su p rotation)).divNat
          (remapHits su p rotation).length) := by
  refine ⟨?_, ?_, ?_⟩
  · intro h
    rw [ScreenUtil.remap, if_pos h]
  · intro h hz
    rw [ScreenUtil.remap, if_neg h, if_pos]
    rw [remapAccum_eq]
    exact hz
  · intro h hz
    rw [ScreenUtil.remap, if_neg h, if_neg]
    · rw [remapAccum_eq]
    · rw [remapAccum_eq]
      exact hz

/-- C6 counterexample to the spec's `centre iff no in-range hit`
clause: from the off-screen point `(-1, 1)` with direction `(-1, -1)`
the remap line passes through the corner `(0, 0)`; the bottom and left
edges BOTH record the in-range hit `(0, 0)`, their sum is `0`, and
`remap` returns the centre `(50, 50)` even though two in-range hits
exist — and the centre is not their average. -/
theorem c6_remap_counterexample :
    ¬ c6Screen.visible ⟨-1, 1⟩ ∧
    remapHits c6Screen ⟨-1, 1⟩ ⟨-1, -1⟩ = [⟨0, 0⟩, ⟨0, 0⟩] ∧
    c6Screen.remap ⟨-1, 1⟩ ⟨-1, -1⟩ = ⟨50, 50⟩ ∧
    (posSum (remapHits c6Screen ⟨-1, 1⟩ ⟨-1, -1⟩)).divNat
      (remapHits c6Screen ⟨-1, 1⟩ ⟨-1, -1⟩).length ≠ (⟨50, 50⟩ : Pos) := by
  refine ⟨?_, ?_, ?_, ?_⟩
  · norm_num [ScreenUtil.visible, c6Screen]
  · norm_num [remapHits, optHit, intersect, det, Pos.mul, Pos.conj,
      Pos.sub, Pos.add, Pos.unitI, c6Screen, Pos.mk.injEq]
  · norm_num [ScreenUtil.remap, ScreenUtil.visible, remapAccum, accumHit,
      intersect, det, Pos.mul, Pos.conj, Pos.sub, Pos.add, Pos.unitI,
      Pos.divNat, c6Screen, Pos.mk.injEq]
  · norm_num [remapHits, optHit, posSum, intersect, det, Pos.mul, Pos.conj,
      Pos.sub, Pos.add, Pos.unitI, Pos.divNat, c6Screen, Pos.mk.injEq]

/-- Witness for the C6 characterization: a visible point is returned
unchanged. -/
theorem c6_remap_witness :
    c6Screen.visible ⟨5, 5⟩ ∧ c6Screen.remap ⟨5, 5⟩ ⟨1, 1⟩ = ⟨5, 5⟩ := by
  have hv : c6Screen.visible ⟨5, 5⟩ := by
    norm_num [ScreenUtil.visible, c6Screen]
  exact ⟨hv, (c6_remap_characterization c6Screen ⟨5, 5⟩ ⟨1, 1⟩).1 hv⟩

/-- C9: whenever both keyframe tracks evaluate (as they do on every
non-empty track), the striking position is
`position@t + exp(angle@t * i) * offset`. -/
theorem c9_line_pos (line : PecJudgeLine) (t : ℚ) (offset : ℂ) (a : ℝ) (P : ℂ)
    (ha : living_matmul line.angle t = some a)
    (hp : living_matmul line.position t = some P) :
    line.pos t offset = some (P + Complex.exp ((a : ℂ) * Complex.I) * offset) := by
  simp only [PecJudgeLine.pos, ha, hp]

/-- Witness for C9 on the concrete judge line with constant zero angle
and zero position: striking at offset `1` gives `exp(0)*1 = 1`. -/
theorem c9_line_pos_witness : c9Line.pos 0 1 = some 1 := by
  have ha : living_matmul c9Line.angle 0 = some (0 : ℝ) :=
    living_clamp_low ⟨0, (0 : ℝ), fun t => t⟩ [] 0 le_rfl
  have hp : living_matmul c9Line.position 0 = some (0 : ℂ) :=
    living_clamp_low ⟨0, (0 : ℂ), fun t => t⟩ [] 0 le_rfl
  rw [c9_line_pos c9Line 0 1 0 0 ha hp]
  norm_num [Complex.exp_zero]

end PhiAuto
